import Mathlib

/-!
Verification of the Fake-DNS allocator (`app/dns/fakedns/fake.go`):
a fake-IP pool carved out of a CIDR block, an arbitrary-precision
allocation cursor, and a capacity-bounded bidirectional LRU cache
mapping domains to fake addresses.

The Go code is embedded shallowly:

* `math/big.Int` values are `Nat` (they are only ever set from byte
  slices and incremented, hence non-negative); `SetBytes`/`Bytes` are
  `bytesToNat`/`natBytes` (note `Bytes` drops leading zero bytes).
* `net.IPNet`, `net.CIDRMask`, `net.IPNet.Contains` and the IPv4 half
  of `net.ParseCIDR` are modelled over big-endian byte lists.
* `v2ray.com/core/common/net.Address` is the inductive `Address`; the
  `nil` interface value produced by `net.IPAddress` on a byte slice
  whose length is neither 4 nor 16 is modelled by `Option.none` at the
  use sites (`IPAddress` returns an `Option Address`).
* the repository's `common/cache.Lru` is not among the source files;
  it is modelled from the spec (see `Lru` below).
* Go functions that can panic (nil dereference) or diverge (the
  unbounded allocation loop) return `Option`, `none` marking the
  missing result; the loop takes an explicit fuel argument.
-/

namespace FakeDnsProof

/-! ### `math/big` byte conversions -/

/-- `big.Int.SetBytes`: interpret a big-endian byte slice as a natural number. -/
def bytesToNat (bs : List Nat) : Nat :=
  bs.foldl (fun acc b => acc * 256 + b) 0

/-- Digit extraction with an explicit structural bound on the number of
digits (the bound makes the recursion structural; any bound at least the
value itself is large enough, see `natBytes_pos_eq`). -/
def natBytesAux : Nat → Nat → List Nat
  | 0, _ => []
  | fuel + 1, n => if n = 0 then [] else natBytesAux fuel (n / 256) ++ [n % 256]

/-- `big.Int.Bytes`: the minimal big-endian byte representation of a natural
number. `natBytes 0 = []`, and the leading byte is never zero. -/
def natBytes (n : Nat) : List Nat :=
  natBytesAux n n

/-! ### Go `net`: CIDR masks, `IPNet`, `ParseCIDR` (IPv4), `Contains` -/

/-- `net.CIDRMask(ones, 8*len)` restricted to byte granularity: the loop in
`CIDRMask` writes `0xff` while at least 8 mask bits remain, then a partial
byte `^(0xff >> n)`, then zero bytes. -/
def maskBytesLen : Nat → Nat → List Nat
  | 0, _ => []
  | len + 1, ones => (256 - 2 ^ (8 - min 8 ones)) :: maskBytesLen len (ones - 8)

/-- The 4-byte IPv4 mask `net.CIDRMask(ones, 32)`. -/
def maskBytes (ones : Nat) : List Nat :=
  maskBytesLen 4 ones

/-- `net.IP.To4`: a 4-byte slice is returned as is, a 16-byte slice with the
IPv4-in-IPv6 prefix is reduced to its last 4 bytes, anything else gives `nil`. -/
def to4 (bs : List Nat) : Option (List Nat) :=
  if bs.length = 4 then some bs
  else if bs.length = 16 ∧ bs.take 12 = [0, 0, 0, 0, 0, 0, 0, 0, 0, 0, 255, 255] then
    some (bs.drop 12)
  else none

/-- The byte-wise comparison loop of `net.IPNet.Contains`:
`nn[i]&m[i] == ip[i]&m[i]` for every index, with matching lengths. -/
def maskedEqL : List Nat → List Nat → List Nat → Bool
  | [], [], [] => true
  | b :: bs, x :: xs, m :: ms => (b &&& m == x &&& m) && maskedEqL bs xs ms
  | _, _, _ => false

/-- `net.IPNet` for an IPv4 network: the masked base address bytes and the
prefix length (the mask is `CIDRMask maskOnes 32`, so `Mask.Size` returns
`(maskOnes, 32)`). -/
structure IPNet where
  ip : List Nat
  maskOnes : Nat
deriving DecidableEq

/-- `net.IPNet.Contains`: normalize the argument with `To4`, reject on length
mismatch, then compare the masked bytes. -/
def IPNet.containsBytes (rng : IPNet) (bs : List Nat) : Bool :=
  match to4 bs with
  | none => false
  | some b => (b.length == rng.ip.length) && maskedEqL rng.ip b (maskBytes rng.maskOnes)

/-- Split a character list at every occurrence of a separator character
(`strings.Split` at character granularity, as `ParseCIDR` and the dotted-quad
parser use it for `/` and `.`). -/
def splitOnChar (c : Char) : List Char → List (List Char)
  | [] => [[]]
  | a :: rest =>
    let r := splitOnChar c rest
    if a = c then [] :: r
    else
      match r with
      | [] => [[a]]
      | x :: xs => (a :: x) :: xs

/-- The decimal parser `dtoi`: at least one digit, digits only. -/
def parseDecimal (cs : List Char) : Option Nat :=
  if cs ≠ [] ∧ cs.all (fun c => c.isDigit) then
    some (cs.foldl (fun acc c => acc * 10 + (c.toNat - 48)) 0)
  else none

/-- The dotted-quad half of `net.ParseCIDR`: four dot-separated decimal
fields, each at most 255. -/
def parseIPv4 (cs : List Char) : Option (List Nat) :=
  match (splitOnChar '.' cs).mapM parseDecimal with
  | some [a, b, c, d] =>
    if a ≤ 255 ∧ b ≤ 255 ∧ c ≤ 255 ∧ d ≤ 255 then some [a, b, c, d] else none
  | _ => none

/-- `net.ParseCIDR` restricted to IPv4 inputs (the subsystem's pools are
IPv4; IPv6 parsing is not modelled): split at the slash, parse the address
and the decimal prefix length (at most 32), and return the address together
with the network, whose base is the address masked byte-wise. -/
def parseCIDR (s : String) : Option (List Nat × IPNet) :=
  match splitOnChar '/' s.data with
  | [ipStr, maskStr] =>
    match parseIPv4 ipStr, parseDecimal maskStr with
    | some ip, some ones =>
      if ones ≤ 32 then
        some (ip, ⟨List.zipWith (fun a m => a &&& m) ip (maskBytes ones), ones⟩)
      else none
    | _, _ => none
  | _ => none

/-! ### `v2ray.com/core/common/net.Address` -/

/-- A non-nil `net.Address` value: an IPv4 address, an IPv6 address, or a
domain address. -/
inductive Address where
  | ipv4 (b0 b1 b2 b3 : Nat)
  | ipv6 (bs : List Nat)
  | domain (s : String)
deriving DecidableEq

/-- `net.IPAddress`: a 4-byte slice gives an IPv4 address, a 16-byte slice
gives an IPv4 address when it carries the IPv4-in-IPv6 prefix and an IPv6
address otherwise, and every other length logs an error and returns the nil
interface value, modelled by `none`. -/
def IPAddress (bs : List Nat) : Option Address :=
  match bs with
  | [a, b, c, d] => some (.ipv4 a b c d)
  | [y0, y1, y2, y3, y4, y5, y6, y7, y8, y9, y10, y11, a, b, c, d] =>
    if y0 = 0 ∧ y1 = 0 ∧ y2 = 0 ∧ y3 = 0 ∧ y4 = 0 ∧ y5 = 0 ∧ y6 = 0 ∧ y7 = 0 ∧
        y8 = 0 ∧ y9 = 0 ∧ y10 = 255 ∧ y11 = 255 then
      some (.ipv4 a b c d)
    else some (.ipv6 [y0, y1, y2, y3, y4, y5, y6, y7, y8, y9, y10, y11, a, b, c, d])
  | _ => none

/-- `Address.Family().IsIP()`: true for the IPv4 and IPv6 families, false for
a domain address. -/
def Address.familyIsIP : Address → Bool
  | .ipv4 _ _ _ _ => true
  | .ipv6 _ => true
  | .domain _ => false

/-- `Address.IP()`: the byte form of an IP address. Calling it on a domain
address panics in Go; the code under study only reaches it behind a
`Family().IsIP()` guard, and the domain case is never evaluated. -/
def Address.ipBytes : Address → List Nat
  | .ipv4 b0 b1 b2 b3 => [b0, b1, b2, b3]
  | .ipv6 bs => bs
  | .domain _ => []

/-! ### `common/cache.Lru` -/

/-- Modelled from the spec: the repository's `common/cache` package is not
among the source files, so the bidirectional bounded LRU cache is taken from
the spec's contract (§4.2 Bidirectional Bounded Cache). Entries are kept in
recency order, most recently used first, specialized to the one instantiation
the code uses: keys are domains (`String`) and values are `net.Address`
interface values, possibly nil (`Option Address`). The capacity is kept as
the Go `int` handed to `NewLru`. -/
structure Lru where
  capacity : Int
  entries : List (String × Option Address)
deriving DecidableEq

/-- Modelled from the spec: `NewLru` creates an empty cache of the given
capacity. -/
def NewLru (cap : Int) : Lru := ⟨cap, []⟩

/-- Modelled from the spec: `get(key)` is a forward lookup; on a hit the
entry is marked most recently used, on a miss nothing is mutated. -/
def Lru.get (l : Lru) (k : String) : Option (Option Address) × Lru :=
  match l.entries.find? (fun e => decide (e.1 = k)) with
  | some e => (some e.2, ⟨l.capacity, e :: l.entries.eraseP (fun e2 => decide (e2.1 = k))⟩)
  | none => (none, l)

/-- Modelled from the spec: `reverseLookup(value)` finds the live key mapped
to the value without affecting the recency order. -/
def Lru.getKeyFromValue (l : Lru) (v : Option Address) : Option String :=
  (l.entries.find? (fun e => decide (e.2 = v))).map Prod.fst

/-- Modelled from the spec: `put(key, value)` inserts or replaces the mapping
for the key, refreshing its recency; when the insertion of a new key
overflows the capacity the single least-recently-used entry is evicted, the
eviction removing both the forward and the reverse index entry of the
evicted pair (one list cell carries both directions here). -/
def Lru.put (l : Lru) (k : String) (v : Option Address) : Lru :=
  if (l.entries.find? (fun e => decide (e.1 = k))).isSome then
    ⟨l.capacity, (k, v) :: l.entries.eraseP (fun e => decide (e.1 = k))⟩
  else
    let es := (k, v) :: l.entries
    ⟨l.capacity, if l.capacity < (es.length : Int) then es.dropLast else es⟩

/-! ### The fakedns `Holder` -/

/-- The `FakeDnsPool` configuration message: a CIDR string and an LRU size. -/
structure FakeDnsPool where
  IpPool : String
  LruSize : Int
deriving DecidableEq

/-- The `Holder` aggregate. The three owned fields are pointers in Go and
nil before initialization and after `Close`, hence the `Option`s. -/
structure Holder where
  domainToIP : Option Lru
  nextIP : Option Nat
  ipRange : Option IPNet
  config : Option FakeDnsPool
deriving DecidableEq

/-- `NewFakeDNSHolderConfigOnly`: a holder with only the config set. -/
def NewFakeDNSHolderConfigOnly (conf : Option FakeDnsPool) : Holder :=
  ⟨none, none, none, conf⟩

/-- `Holder.Close`: clears the cache, the cursor and the range, keeps the
config, and returns the nil error (`none`). -/
def Holder.Close (holder : Holder) : Holder × Option String :=
  ({ domainToIP := none, nextIP := none, ipRange := none, config := holder.config }, none)

/-- `Holder.initialize`: parse the CIDR; set the cursor from the parsed
address bytes (`To4` is the identity on the 4-byte addresses the IPv4 parser
yields); reject the configuration when `math.Log2(float64(lruSize))` is at
least the number `rooms` of host bits — for every value an `int` can take
this floating-point test is exactly `2 ^ rooms ≤ lruSize` (for
`1 ≤ lruSize < 2 ^ rooms` the closest double to `log2 lruSize` is below
`rooms`, powers of two are exact in `Log2`, and `Log2` of zero and of
negative values is `-Inf` resp. `NaN`, both failing the `>=`); otherwise
install the fresh cache, the range and the cursor. -/
def Holder.initialize (holder : Holder) (ipPoolCidr : String) (lruSize : Int) :
    Option Holder :=
  match parseCIDR ipPoolCidr with
  | none => none
  | some (ipaddr, ipRange) =>
    let currentIP := bytesToNat ipaddr
    let rooms := 32 - ipRange.maskOnes
    if (2 : Int) ^ rooms ≤ lruSize then none
    else some { holder with
      domainToIP := some (NewLru lruSize)
      ipRange := some ipRange
      nextIP := some currentIP }

/-- One pass of the cursor update inside the allocation loop: increment
`nextIP`; if its minimal byte form no longer lies in the range, reset it to
the range's base bytes. -/
def advanceCursor (rng : IPNet) (cur : Nat) : Nat :=
  if rng.containsBytes (natBytes (cur + 1)) then cur + 1 else bytesToNat rng.ip

/-- The allocation loop of `GetFakeIPForDomain`: take the cursor's byte form
as candidate, advance the cursor (with wraparound), and accept the candidate
as soon as the reverse lookup finds no live domain for it. The Go loop is
unbounded (`for {}`); the fuel argument makes it total, `none` meaning the
loop has not finished within `fuel` iterations. -/
def allocLoop (cache : Lru) (rng : IPNet) : Nat → Nat → Option (Option Address × Nat)
  | 0, _ => none
  | fuel + 1, cur =>
    let ip := IPAddress (natBytes cur)
    let cur2 := advanceCursor rng cur
    if (cache.getKeyFromValue ip).isSome then allocLoop cache rng fuel cur2
    else some (ip, cur2)

/-- `Holder.GetFakeIPForDomain`: forward lookup first; on a miss run the
allocation loop and insert the accepted candidate. On a hit the source runs
the single-form type assertion `v.(net.Address)`, which panics when the
cached value is the nil interface (a nil fake address stored by the miss
path), so a hit on a nil value yields `none`. `none` also models a nil
dereference (uninitialized holder) or a loop that has not finished within
`fuel` iterations. -/
def Holder.GetFakeIPForDomain (holder : Holder) (fuel : Nat) (domain : String) :
    Option (List (Option Address) × Holder) :=
  match holder.domainToIP, holder.nextIP, holder.ipRange with
  | some cache, some cur, some rng =>
    match cache.get domain with
    | (some (some a), cache2) =>
      some ([some a], { holder with domainToIP := some cache2 })
    | (some none, _) => none
    | (none, _) =>
      match allocLoop cache rng fuel cur with
      | none => none
      | some (ip, cur2) =>
        some ([ip], { holder with
          domainToIP := some (cache.put domain ip)
          nextIP := some cur2 })
  | _, _, _ => none

/-- `Holder.GetDomainFromFakeDNS`: reject non-IP addresses, then addresses
outside the pool range, then reverse-look up the address; `some ""` is the
"not found" result, `none` models the nil dereference a closed holder's
range or cache would cause (the family test precedes both dereferences,
mirroring the short-circuit order in the source). -/
def Holder.GetDomainFromFakeDNS (holder : Holder) (ip : Address) : Option String :=
  if !ip.familyIsIP then some ""
  else
    match holder.ipRange with
    | none => none
    | some rng =>
      if !rng.containsBytes ip.ipBytes then some ""
      else
        match holder.domainToIP with
        | none => none
        | some cache =>
          match cache.getKeyFromValue (some ip) with
          | some k => some k
          | none => some ""

/-! ### Invariant vocabulary -/

/-- Apply the CIDR mask byte-wise to a byte list (`net.IP.Mask`). -/
def maskedApply (bs : List Nat) (ones : Nat) : List Nat :=
  List.zipWith (fun a m => a &&& m) bs (maskBytesLen bs.length ones)

/-- A byte list is already masked: applying the mask changes nothing. -/
def Masked (bs : List Nat) (ones : Nat) : Prop :=
  maskedApply bs ones = bs

/-- Shape facts holding for every network produced by `parseCIDR`: four base
bytes, each below 256, a prefix length of at most 32, and a masked base. -/
def ParsedRange (rng : IPNet) : Prop :=
  rng.ip.length = 4 ∧ (∀ b ∈ rng.ip, b < 256) ∧ rng.maskOnes ≤ 32 ∧
    Masked rng.ip rng.maskOnes

/-- A parsed network whose base has a nonzero leading octet, so every pool
address has a full 4-byte minimal representation. -/
def RangeGood (rng : IPNet) : Prop :=
  ParsedRange rng ∧ 2 ^ 24 ≤ bytesToNat rng.ip

/-- The numeric base address of the pool. -/
def IPNet.baseN (rng : IPNet) : Nat := bytesToNat rng.ip

/-- The pool's address-space size, `2 ^ rooms`. -/
def IPNet.poolSize (rng : IPNet) : Nat := 2 ^ (32 - rng.maskOnes)

/-- Numeric pool membership: the value denotes an address in the pool. -/
def inPool (rng : IPNet) (n : Nat) : Prop :=
  rng.baseN ≤ n ∧ n < rng.baseN + rng.poolSize

/-- The live mappings form a partial bijection: no domain occurs twice and
no address value occurs twice. -/
def Lru.bijective (l : Lru) : Prop :=
  (l.entries.map Prod.fst).Nodup ∧ (l.entries.map Prod.snd).Nodup

/-- Holder states reachable from a successful `initialize` through
`GetFakeIPForDomain` and `GetDomainFromFakeDNS` calls (the latter leaves the
state unchanged in this embedding, since the spec's reverse lookup does not
touch the recency order). -/
inductive Reachable : Holder → Prop
  | init (h : Holder) (s : String) (cap : Int) (h2 : Holder) :
      Holder.initialize h s cap = some h2 → Reachable h2
  | getIP (h : Holder) (fuel : Nat) (d : String) (r : List (Option Address)) (h2 : Holder) :
      Reachable h → h.GetFakeIPForDomain fuel d = some (r, h2) → Reachable h2
  | getDomain (h : Holder) (ip : Address) (s : String) :
      Reachable h → h.GetDomainFromFakeDNS ip = some s → Reachable h

/-- The allocator invariant on an active holder's components: a well-formed
pool, a cursor denoting a pool address, cached values that are fake addresses
of the pool, a live count within the capacity, and a capacity strictly below
the pool size. -/
def GoodState (cache : Lru) (rng : IPNet) (cur : Nat) : Prop :=
  RangeGood rng ∧ inPool rng cur ∧
    (∀ e ∈ cache.entries, ∃ n, inPool rng n ∧ e.2 = IPAddress (natBytes n)) ∧
    (cache.entries.length : Int) ≤ max 0 cache.capacity ∧
    cache.capacity < (rng.poolSize : Int)

/-- An active holder satisfying the allocator invariant. -/
def Good (h : Holder) : Prop :=
  ∃ cache rng cur, h.domainToIP = some cache ∧ h.ipRange = some rng ∧
    h.nextIP = some cur ∧ GoodState cache rng cur

/-! ### Byte-conversion lemmas -/

theorem bytesToNat_aux (bs : List Nat) (a : Nat) :
    bs.foldl (fun acc b => acc * 256 + b) a = a * 256 ^ bs.length + bytesToNat bs := by
  induction bs generalizing a with
  | nil => simp [bytesToNat]
  | cons b bs ih =>
    have h1 : bytesToNat (b :: bs) = bs.foldl (fun acc b => acc * 256 + b) b := by
      simp [bytesToNat]
    simp only [List.foldl_cons, List.length_cons]
    rw [ih (a * 256 + b), h1, ih b]
    ring

theorem bytesToNat_cons (b : Nat) (bs : List Nat) :
    bytesToNat (b :: bs) = b * 256 ^ bs.length + bytesToNat bs := by
  simpa [bytesToNat] using bytesToNat_aux bs b

@[simp] theorem bytesToNat_nil : bytesToNat [] = 0 := rfl

theorem bytesToNat_lt (bs : List Nat) (h : ∀ b ∈ bs, b < 256) :
    bytesToNat bs < 256 ^ bs.length := by
  induction bs with
  | nil => simp
  | cons b bs ih =>
    rw [bytesToNat_cons, List.length_cons, pow_succ]
    have hb : b < 256 := h b (by simp)
    have ht : bytesToNat bs < 256 ^ bs.length := ih fun x hx => h x (by simp [hx])
    calc b * 256 ^ bs.length + bytesToNat bs
        < b * 256 ^ bs.length + 256 ^ bs.length := by omega
      _ = (b + 1) * 256 ^ bs.length := by ring
      _ ≤ 256 * 256 ^ bs.length := by
          exact Nat.mul_le_mul_right _ (by omega)
      _ = 256 ^ bs.length * 256 := by ring

theorem natBytesAux_zero_val (fuel : Nat) : natBytesAux fuel 0 = [] := by
  cases fuel <;> simp [natBytesAux]

theorem natBytesAux_congr : ∀ (f1 f2 n : Nat), n ≤ f1 → n ≤ f2 →
    natBytesAux f1 n = natBytesAux f2 n := by
  intro f1
  induction f1 with
  | zero =>
    intro f2 n h1 _
    obtain rfl : n = 0 := by omega
    rw [natBytesAux_zero_val, natBytesAux_zero_val]
  | succ f1 ih =>
    intro f2 n h1 h2
    by_cases hn : n = 0
    · subst hn
      rw [natBytesAux_zero_val, natBytesAux_zero_val]
    · cases f2 with
      | zero => omega
      | succ f2 =>
        simp only [natBytesAux, if_neg hn]
        congr 1
        exact ih f2 (n / 256) (by omega) (by omega)

@[simp] theorem natBytes_zero : natBytes 0 = [] := rfl

theorem natBytes_pos_eq (n : Nat) (h : n ≠ 0) :
    natBytes n = natBytes (n / 256) ++ [n % 256] := by
  obtain ⟨m, rfl⟩ : ∃ m, n = m + 1 := ⟨n - 1, by omega⟩
  show natBytesAux (m + 1) (m + 1) =
    natBytesAux ((m + 1) / 256) ((m + 1) / 256) ++ [(m + 1) % 256]
  simp only [natBytesAux, if_neg (by omega : ¬m + 1 = 0)]
  congr 1
  exact natBytesAux_congr m ((m + 1) / 256) ((m + 1) / 256) (by omega) (le_refl _)

theorem natBytes_mul_add (q r : Nat) (hr : r < 256) (h : q * 256 + r ≠ 0) :
    natBytes (q * 256 + r) = natBytes q ++ [r] := by
  rw [natBytes_pos_eq _ h]
  have h1 : (q * 256 + r) / 256 = q := by omega
  have h2 : (q * 256 + r) % 256 = r := by omega
  rw [h1, h2]

theorem bytesToNat_append_singleton (bs : List Nat) (r : Nat) :
    bytesToNat (bs ++ [r]) = bytesToNat bs * 256 + r := by
  simp [bytesToNat, List.foldl_append]

theorem bytesToNat_natBytes (n : Nat) : bytesToNat (natBytes n) = n := by
  induction n using Nat.strong_induction_on with
  | _ n ih =>
    by_cases h : n = 0
    · simp [h]
    · rw [natBytes_pos_eq n h, bytesToNat_append_singleton,
        ih (n / 256) (Nat.div_lt_self (Nat.pos_of_ne_zero h) (by norm_num))]
      omega

theorem natBytes_mem_lt (n : Nat) : ∀ b ∈ natBytes n, b < 256 := by
  induction n using Nat.strong_induction_on with
  | _ n ih =>
    by_cases h : n = 0
    · simp [h]
    · rw [natBytes_pos_eq n h]
      intro b hb
      rcases List.mem_append.mp hb with h1 | h1
      · exact ih (n / 256) (Nat.div_lt_self (Nat.pos_of_ne_zero h) (by norm_num)) b h1
      · simp only [List.mem_singleton] at h1
        omega

theorem natBytes_length_le_iff (n k : Nat) : (natBytes n).length ≤ k ↔ n < 256 ^ k := by
  induction k generalizing n with
  | zero =>
    simp only [Nat.le_zero, List.length_eq_zero, pow_zero, Nat.lt_one_iff]
    constructor
    · intro h
      by_contra hn
      rw [natBytes_pos_eq n hn] at h
      simp at h
    · intro h
      simp [h, natBytes_zero]
  | succ k ih =>
    by_cases h : n = 0
    · simp only [h, natBytes_zero, List.length_nil, Nat.zero_le, true_iff]
      positivity
    · rw [natBytes_pos_eq n h]
      simp only [List.length_append, List.length_singleton]
      have hiff := ih (n / 256)
      rw [pow_succ]
      constructor
      · intro hle
        have h1 : (natBytes (n / 256)).length ≤ k := by omega
        have h2 := hiff.mp h1
        omega
      · intro hlt
        have h2 : n / 256 < 256 ^ k := by omega
        have h3 := hiff.mpr h2
        omega

theorem natBytes_head_ne_zero (n : Nat) (h : n ≠ 0) :
    ∃ b t, natBytes n = b :: t ∧ b ≠ 0 := by
  induction n using Nat.strong_induction_on with
  | _ n ih =>
    rw [natBytes_pos_eq n h]
    by_cases hq : n / 256 = 0
    · refine ⟨n % 256, [], ?_, ?_⟩
      · simp [hq]
      · omega
    · obtain ⟨b, t, hbt, hb⟩ :=
        ih (n / 256) (Nat.div_lt_self (Nat.pos_of_ne_zero h) (by norm_num)) hq
      exact ⟨b, t ++ [n % 256], by simp [hbt], hb⟩

theorem natBytes_single (n : Nat) (h0 : n ≠ 0) (h : n < 256) : natBytes n = [n] := by
  rw [natBytes_pos_eq n h0, Nat.div_eq_of_lt h, Nat.mod_eq_of_lt h, natBytes_zero,
    List.nil_append]

theorem natBytes_four (n : Nat) (hlo : 2 ^ 24 ≤ n) (hhi : n < 2 ^ 32) :
    natBytes n = [n / 2 ^ 24, n / 2 ^ 16 % 256, n / 2 ^ 8 % 256, n % 256] := by
  have e1 : natBytes n = natBytes (n / 256) ++ [n % 256] :=
    natBytes_pos_eq n (by omega)
  have e2 : natBytes (n / 256) = natBytes (n / 256 / 256) ++ [n / 256 % 256] :=
    natBytes_pos_eq _ (by omega)
  have e3 : natBytes (n / 256 / 256) =
      natBytes (n / 256 / 256 / 256) ++ [n / 256 / 256 % 256] :=
    natBytes_pos_eq _ (by omega)
  have e4 : natBytes (n / 256 / 256 / 256) = [n / 256 / 256 / 256] :=
    natBytes_single _ (by omega) (by omega)
  rw [e1, e2, e3, e4]
  have d2 : n / 256 / 256 / 256 = n / 2 ^ 24 := by omega
  have d1 : n / 256 / 256 % 256 = n / 2 ^ 16 % 256 := by omega
  have d3 : n / 256 % 256 = n / 2 ^ 8 % 256 := by omega
  rw [d2, d1, d3]
  simp

theorem natBytes_length_four (n : Nat) (hlo : 2 ^ 24 ≤ n) (hhi : n < 2 ^ 32) :
    (natBytes n).length = 4 := by
  rw [natBytes_four n hlo hhi]
  rfl

theorem bytesToNat_four (b0 b1 b2 b3 : Nat) :
    bytesToNat [b0, b1, b2, b3] = ((b0 * 256 + b1) * 256 + b2) * 256 + b3 := by
  simp [bytesToNat]

/-! ### Byte-level bitwise AND -/

set_option maxRecDepth 8000 in
/-- On single bytes, ANDing with a high-ones mask byte `256 - 2 ^ j` clears
the low `j` bits. Established once for all byte values by decision. -/
theorem land_table : ∀ a < 256, ∀ j < 9, a &&& (256 - 2 ^ j) = a - a % 2 ^ j := by
  decide

theorem land_mask_byte (a j : Nat) (ha : a < 256) (hj : j ≤ 8) :
    a &&& (256 - 2 ^ j) = a - a % 2 ^ j :=
  land_table a ha j (by omega)

theorem land_zero (a : Nat) : a &&& 0 = 0 :=
  Nat.le_zero.mp Nat.and_le_right

theorem pow256_eq (L : Nat) : (256 : Nat) ^ L = 2 ^ (8 * L) := by
  rw [pow_mul]
  norm_num

/-! ### Mask structure lemmas -/

theorem maskBytesLen_length (L ones : Nat) : (maskBytesLen L ones).length = L := by
  induction L generalizing ones with
  | zero => rfl
  | succ L ih => simp [maskBytesLen, ih]

theorem maskBytesLen_zero (L : Nat) : maskBytesLen L 0 = List.replicate L 0 := by
  induction L with
  | zero => rfl
  | succ L ih =>
    simp only [maskBytesLen, ih]
    norm_num [List.replicate_succ]

theorem bytesToNat_all_zero (bs : List Nat) (h : ∀ b ∈ bs, b = 0) :
    bytesToNat bs = 0 := by
  induction bs with
  | nil => rfl
  | cons b bs ih =>
    rw [bytesToNat_cons, h b (by simp), ih fun x hx => h x (by simp [hx])]
    simp

theorem zipWith_land_zero_all (bs : List Nat)
    (h : List.zipWith (fun a m => a &&& m) bs (List.replicate bs.length 0) = bs) :
    ∀ b ∈ bs, b = 0 := by
  induction bs with
  | nil => simp
  | cons b bs ih =>
    simp only [List.length_cons, List.replicate_succ, List.zipWith_cons_cons,
      List.cons.injEq] at h
    intro x hx
    rcases List.mem_cons.mp hx with rfl | hx
    · rw [← h.1, land_zero]
    · exact ih h.2 x hx

theorem maskedEqL_replicate_zero :
    ∀ (bs xs : List Nat), xs.length = bs.length →
      maskedEqL bs xs (List.replicate bs.length 0) = true := by
  intro bs
  induction bs with
  | nil =>
    intro xs hlen
    obtain rfl : xs = [] := List.length_eq_zero.mp (by simpa using hlen)
    rfl
  | cons b bs ih =>
    intro xs hlen
    match xs with
    | x :: xs =>
      simp only [List.length_cons, List.replicate_succ, maskedEqL, land_zero,
        Bool.and_eq_true, beq_self_eq_true, true_and]
      exact ih xs (by simpa using hlen)

/-! ### Interval arithmetic helpers -/

theorem sub_mod_eq_iff (d b x : Nat) (hd : 0 < d) (hb : b % d = 0) :
    x - x % d = b ↔ b ≤ x ∧ x < b + d := by
  constructor
  · rintro rfl
    have := Nat.mod_lt x hd
    omega
  · rintro ⟨h1, h2⟩
    have hq : d * (b / d) = b := Nat.mul_div_cancel' (Nat.dvd_of_mod_eq_zero hb)
    have hx : x = d * (b / d) + (x - b) := by omega
    have hmod : x % d = x - b := by
      conv_lhs => rw [hx]
      rw [Nat.mul_add_mod, Nat.mod_eq_of_lt (by omega)]
    omega

theorem block_head_iff (P c b x X : Nat) (hP : 0 < P) (hX : X < P) :
    b * P ≤ x * P + X ∧ x * P + X < (b + c) * P ↔ b ≤ x ∧ x < b + c := by
  constructor
  · rintro ⟨h1, h2⟩
    constructor
    · by_contra hbx
      push_neg at hbx
      have hm : (x + 1) * P ≤ b * P := Nat.mul_le_mul_right P (by omega)
      have he : (x + 1) * P = x * P + P := by ring
      omega
    · by_contra hxc
      push_neg at hxc
      have hm : (b + c) * P ≤ x * P := Nat.mul_le_mul_right P hxc
      omega
  · rintro ⟨h1, h2⟩
    have hm1 : b * P ≤ x * P := Nat.mul_le_mul_right P h1
    have hm2 : (x + 1) * P ≤ (b + c) * P := Nat.mul_le_mul_right P (by omega)
    have he : (x + 1) * P = x * P + P := by ring
    omega

theorem block_full_iff (P k b x B X : Nat) (hP : 0 < P) (hB : B < P) (hX : X < P)
    (hkd : k ∣ P) (hBk : B % k = 0) (hkpos : 0 < k) :
    b * P + B ≤ x * P + X ∧ x * P + X < b * P + B + k ↔ b = x ∧ B ≤ X ∧ X < B + k := by
  have hBkP : B + k ≤ P := by
    obtain ⟨m, hm⟩ := hkd
    have hq : k * (B / k) = B := Nat.mul_div_cancel' (Nat.dvd_of_mod_eq_zero hBk)
    have h1 : B / k < m := by
      by_contra hc
      push_neg at hc
      have := Nat.mul_le_mul_left k hc
      omega
    have h2 : k * (B / k + 1) ≤ k * m := Nat.mul_le_mul_left k (by omega)
    have h3 : k * (B / k + 1) = k * (B / k) + k := by ring
    omega
  constructor
  · rintro ⟨h1, h2⟩
    have hbx : b = x := by
      rcases Nat.lt_trichotomy b x with hlt | heq | hgt
      · exfalso
        have hm : (b + 1) * P ≤ x * P := Nat.mul_le_mul_right P (by omega)
        have he : (b + 1) * P = b * P + P := by ring
        omega
      · exact heq
      · exfalso
        have hm : (x + 1) * P ≤ b * P := Nat.mul_le_mul_right P (by omega)
        have he : (x + 1) * P = x * P + P := by ring
        omega
    subst hbx
    omega
  · rintro ⟨rfl, h2, h3⟩
    omega

/-! ### The interval characterization of masked equality -/

theorem masked_bytesToNat_mod (bs : List Nat) :
    ∀ (ones : Nat), (∀ b ∈ bs, b < 256) → ones ≤ 8 * bs.length →
      List.zipWith (fun a m => a &&& m) bs (maskBytesLen bs.length ones) = bs →
      bytesToNat bs % 2 ^ (8 * bs.length - ones) = 0 := by
  induction bs with
  | nil => simp
  | cons b bs ih =>
    intro ones hlt hones hmask
    simp only [List.length_cons] at hones
    simp only [List.length_cons, maskBytesLen, List.zipWith_cons_cons,
      List.cons.injEq] at hmask
    obtain ⟨hb, htail⟩ := hmask
    rw [bytesToNat_cons]
    by_cases h8 : 8 ≤ ones
    · have hrec := ih (ones - 8) (fun x hx => hlt x (by simp [hx])) (by omega) htail
      have hexp : 8 * (b :: bs).length - ones = 8 * bs.length - (ones - 8) := by
        simp only [List.length_cons]
        omega
      rw [hexp]
      apply Nat.mod_eq_zero_of_dvd
      apply Nat.dvd_add
      · apply Dvd.dvd.mul_left
        rw [pow256_eq]
        exact pow_dvd_pow 2 (by omega)
      · exact Nat.dvd_of_mod_eq_zero hrec
    · have hbyte : b &&& (256 - 2 ^ (8 - min 8 ones)) = b - b % 2 ^ (8 - ones) := by
        rw [Nat.min_eq_right (by omega : ones ≤ 8)]
        exact land_mask_byte b (8 - ones) (hlt b (by simp)) (by omega)
      have hbmod : b % 2 ^ (8 - ones) = 0 := by
        have hle : b % 2 ^ (8 - ones) ≤ b := Nat.mod_le _ _
        omega
      have hz : ones - 8 = 0 := by omega
      rw [hz, maskBytesLen_zero] at htail
      have hB : bytesToNat bs = 0 :=
        bytesToNat_all_zero bs (zipWith_land_zero_all bs htail)
      rw [hB, Nat.add_zero]
      have hexp : 8 * (b :: bs).length - ones = 8 * bs.length + (8 - ones) := by
        simp only [List.length_cons]
        omega
      rw [hexp]
      apply Nat.mod_eq_zero_of_dvd
      have hq : 2 ^ (8 - ones) * (b / 2 ^ (8 - ones)) = b :=
        Nat.mul_div_cancel' (Nat.dvd_of_mod_eq_zero hbmod)
      refine ⟨b / 2 ^ (8 - ones), ?_⟩
      rw [pow256_eq, pow_add]
      calc b * 2 ^ (8 * bs.length)
          = 2 ^ (8 - ones) * (b / 2 ^ (8 - ones)) * 2 ^ (8 * bs.length) := by rw [hq]
        _ = 2 ^ (8 * bs.length) * 2 ^ (8 - ones) * (b / 2 ^ (8 - ones)) := by ring

theorem maskedEqL_iff_interval (bs : List Nat) :
    ∀ (xs : List Nat) (ones : Nat),
      xs.length = bs.length → ones ≤ 8 * bs.length →
      (∀ b ∈ bs, b < 256) → (∀ x ∈ xs, x < 256) →
      List.zipWith (fun a m => a &&& m) bs (maskBytesLen bs.length ones) = bs →
      (maskedEqL bs xs (maskBytesLen bs.length ones) = true ↔
        bytesToNat bs ≤ bytesToNat xs ∧
          bytesToNat xs < bytesToNat bs + 2 ^ (8 * bs.length - ones)) := by
  induction bs with
  | nil =>
    intro xs ones hlen hones hbs hxs hmask
    obtain rfl : xs = [] := List.length_eq_zero.mp (by simpa using hlen)
    have hz : ones = 0 := by simpa using hones
    subst hz
    simp [maskedEqL, maskBytesLen]
  | cons b bs ih =>
    intro xs ones hlen hones hbs hxs hmask
    cases xs with
    | nil => simp at hlen
    | cons x xs =>
      simp only [List.length_cons] at hones
      have hlen2 : xs.length = bs.length := by simpa using hlen
      simp only [List.length_cons, maskBytesLen, List.zipWith_cons_cons,
        List.cons.injEq] at hmask
      obtain ⟨hb, htail⟩ := hmask
      have hblt : b < 256 := hbs b (by simp)
      have hxlt : x < 256 := hxs x (by simp)
      have hbs2 : ∀ y ∈ bs, y < 256 := fun y hy => hbs y (by simp [hy])
      have hxs2 : ∀ y ∈ xs, y < 256 := fun y hy => hxs y (by simp [hy])
      have hP : 0 < 256 ^ bs.length := by positivity
      have hB : bytesToNat bs < 256 ^ bs.length := bytesToNat_lt bs hbs2
      have hX : bytesToNat xs < 256 ^ bs.length := by
        rw [← hlen2]
        exact bytesToNat_lt xs hxs2
      rw [bytesToNat_cons, bytesToNat_cons, hlen2]
      simp only [List.length_cons, maskedEqL, maskBytesLen, Bool.and_eq_true, beq_iff_eq]
      by_cases h8 : 8 ≤ ones
      · have hm0 : 256 - 2 ^ (8 - min 8 ones) = 255 := by
          rw [Nat.min_eq_left (by omega : (8 : Nat) ≤ ones)]
          norm_num
        have hb255 : ∀ a : Nat, a < 256 → a &&& 255 = a := by
          intro a ha
          have := land_mask_byte a 0 ha (by omega)
          simpa [Nat.mod_one] using this
        rw [hm0, hb255 b hblt, hb255 x hxlt]
        have hrec := ih xs (ones - 8) hlen2 (by omega) hbs2 hxs2 htail
        have hexp : 8 * (bs.length + 1) - ones = 8 * bs.length - (ones - 8) := by omega
        rw [hexp]
        have hBk : bytesToNat bs % 2 ^ (8 * bs.length - (ones - 8)) = 0 :=
          masked_bytesToNat_mod bs (ones - 8) hbs2 (by omega) htail
        have hkd : 2 ^ (8 * bs.length - (ones - 8)) ∣ 256 ^ bs.length := by
          rw [pow256_eq]
          exact pow_dvd_pow 2 (by omega)
        have hblock := block_full_iff (256 ^ bs.length) (2 ^ (8 * bs.length - (ones - 8)))
          b x (bytesToNat bs) (bytesToNat xs) hP hB hX hkd hBk (by positivity)
        constructor
        · rintro ⟨rfl, h2⟩
          exact hblock.mpr ⟨rfl, hrec.mp h2⟩
        · intro hin
          obtain ⟨rfl, h3, h4⟩ := hblock.mp hin
          exact ⟨rfl, hrec.mpr ⟨h3, h4⟩⟩
      · have hmin : min 8 ones = ones := Nat.min_eq_right (by omega)
        rw [hmin] at hb ⊢
        have hxband : x &&& (256 - 2 ^ (8 - ones)) = x - x % 2 ^ (8 - ones) :=
          land_mask_byte x (8 - ones) hxlt (by omega)
        have hbmod : b % 2 ^ (8 - ones) = 0 := by
          have h1 : b &&& (256 - 2 ^ (8 - ones)) = b - b % 2 ^ (8 - ones) :=
            land_mask_byte b (8 - ones) hblt (by omega)
          have hle : b % 2 ^ (8 - ones) ≤ b := Nat.mod_le _ _
          omega
        have hz : ones - 8 = 0 := by omega
        rw [hz, maskBytesLen_zero] at htail
        have hB0 : bytesToNat bs = 0 :=
          bytesToNat_all_zero bs (zipWith_land_zero_all bs htail)
        have htriv : maskedEqL bs xs (maskBytesLen bs.length (ones - 8)) = true := by
          rw [hz, maskBytesLen_zero]
          exact maskedEqL_replicate_zero bs xs hlen2
        have hhead : (b &&& (256 - 2 ^ (8 - ones)) = x &&& (256 - 2 ^ (8 - ones))) ↔
            (b ≤ x ∧ x < b + 2 ^ (8 - ones)) := by
          rw [hb, hxband]
          rw [← sub_mod_eq_iff (2 ^ (8 - ones)) b x (by positivity) hbmod]
          constructor
          · intro h
            exact h.symm
          · intro h
            exact h.symm
        have hexp : 8 * (bs.length + 1) - ones = 8 * bs.length + (8 - ones) := by omega
        rw [hexp, hB0]
        have hpow : 2 ^ (8 * bs.length + (8 - ones)) = 2 ^ (8 - ones) * 256 ^ bs.length := by
          rw [pow_add, pow256_eq]
          ring
        have hbridge : b * 256 ^ bs.length + 0 + 2 ^ (8 * bs.length + (8 - ones)) =
            (b + 2 ^ (8 - ones)) * 256 ^ bs.length := by
          rw [hpow]
          ring
        have hblock := block_head_iff (256 ^ bs.length) (2 ^ (8 - ones)) b x
          (bytesToNat xs) hP hX
        constructor
        · rintro ⟨h1, _⟩
          have hbx := hhead.mp h1
          have := hblock.mpr hbx
          omega
        · rintro ⟨h1, h2⟩
          refine ⟨?_, htriv⟩
          apply hhead.mpr
          apply hblock.mp
          constructor
          · omega
          · rw [← hbridge]
            omega

/-! ### Range shape facts -/

theorem land_mask_byte_idem (a j : Nat) (ha : a < 256) (hj : j ≤ 8) :
    (a &&& (256 - 2 ^ j)) &&& (256 - 2 ^ j) = a &&& (256 - 2 ^ j) := by
  rw [land_mask_byte a j ha hj]
  have hle : a % 2 ^ j ≤ a := Nat.mod_le _ _
  rw [land_mask_byte (a - a % 2 ^ j) j (by omega) hj]
  have hself : (a - a % 2 ^ j) % 2 ^ j = 0 := by
    have hd : a - a % 2 ^ j = 2 ^ j * (a / 2 ^ j) := by
      have := Nat.div_add_mod a (2 ^ j)
      omega
    rw [hd, Nat.mul_mod_right]
  omega

theorem maskBytesLen_byte_form :
    ∀ (L ones : Nat), ∀ m ∈ maskBytesLen L ones, ∃ j ≤ 8, m = 256 - 2 ^ j := by
  intro L
  induction L with
  | zero => simp [maskBytesLen]
  | succ L ih =>
    intro ones m hm
    rcases List.mem_cons.mp hm with rfl | hm
    · exact ⟨8 - min 8 ones, by omega, rfl⟩
    · exact ih (ones - 8) m hm

theorem zipWith_land_mask_idem :
    ∀ (bs ms : List Nat), (∀ b ∈ bs, b < 256) → (∀ m ∈ ms, ∃ j ≤ 8, m = 256 - 2 ^ j) →
      List.zipWith (fun a m => a &&& m) (List.zipWith (fun a m => a &&& m) bs ms) ms =
        List.zipWith (fun a m => a &&& m) bs ms := by
  intro bs
  induction bs with
  | nil => intro ms _ _; simp
  | cons b bs ih =>
    intro ms hbs hms
    cases ms with
    | nil => simp
    | cons m ms =>
      simp only [List.zipWith_cons_cons, List.cons.injEq]
      obtain ⟨j, hj, rfl⟩ := hms m (by simp)
      refine ⟨land_mask_byte_idem b j (hbs b (by simp)) hj, ?_⟩
      exact ih ms (fun y hy => hbs y (by simp [hy])) (fun y hy => hms y (by simp [hy]))

theorem zipWith_land_lt :
    ∀ (bs ms : List Nat), (∀ b ∈ bs, b < 256) →
      ∀ y ∈ List.zipWith (fun a m => a &&& m) bs ms, y < 256 := by
  intro bs
  induction bs with
  | nil =>
    intro ms _
    simp
  | cons b bs ih =>
    intro ms hbs
    cases ms with
    | nil => simp
    | cons m ms =>
      intro y hy
      simp only [List.zipWith_cons_cons, List.mem_cons] at hy
      rcases hy with rfl | hy
      · exact lt_of_le_of_lt Nat.and_le_left (hbs b (by simp))
      · exact ih ms (fun z hz => hbs z (by simp [hz])) y hy

theorem parseIPv4_shape (cs : List Char) (ip : List Nat) (h : parseIPv4 cs = some ip) :
    ip.length = 4 ∧ ∀ b ∈ ip, b < 256 := by
  unfold parseIPv4 at h
  rcases hm : (splitOnChar '.' cs).mapM parseDecimal with _ | l
  · rw [hm] at h; exact absurd h (by simp)
  · rw [hm] at h
    match l with
    | [] => exact absurd h (by simp)
    | [_] => exact absurd h (by simp)
    | [_, _] => exact absurd h (by simp)
    | [_, _, _] => exact absurd h (by simp)
    | [a, b, c, d] =>
      dsimp only at h
      by_cases hle : a ≤ 255 ∧ b ≤ 255 ∧ c ≤ 255 ∧ d ≤ 255
      · rw [if_pos hle] at h
        obtain rfl : [a, b, c, d] = ip := by simpa using h
        refine ⟨rfl, ?_⟩
        intro y hy
        simp only [List.mem_cons, List.not_mem_nil, or_false] at hy
        rcases hy with rfl | rfl | rfl | rfl <;> omega
      · rw [if_neg hle] at h
        exact absurd h (by simp)
    | _ :: _ :: _ :: _ :: _ :: _ => exact absurd h (by simp)

theorem parseCIDR_shape (s : String) (ip : List Nat) (rng : IPNet)
    (h : parseCIDR s = some (ip, rng)) :
    ip.length = 4 ∧ (∀ b ∈ ip, b < 256) ∧
      rng.ip = List.zipWith (fun a m => a &&& m) ip (maskBytes rng.maskOnes) ∧
      ParsedRange rng := by
  unfold parseCIDR at h
  rcases hsp : splitOnChar '/' s.data with _ | ⟨ipStr, tl⟩
  · rw [hsp] at h; exact absurd h (by simp)
  · rw [hsp] at h
    match tl with
    | [] => exact absurd h (by simp)
    | [maskStr] =>
      dsimp only at h
      rcases hip : parseIPv4 ipStr with _ | ip2
      · rw [hip] at h; exact absurd h (by simp)
      rcases hmask : parseDecimal maskStr with _ | ones
      · rw [hip, hmask] at h; exact absurd h (by simp)
      rw [hip, hmask] at h
      dsimp only at h
      by_cases hones : ones ≤ 32
      · rw [if_pos hones] at h
        simp only [Option.some.injEq, Prod.mk.injEq] at h
        obtain ⟨rfl, hrng⟩ := h
        obtain ⟨hlen, hlt⟩ := parseIPv4_shape ipStr ip2 hip
        subst hrng
        refine ⟨hlen, hlt, rfl, ?_, ?_, by simpa using hones, ?_⟩
        · simp only [List.length_zipWith, maskBytes, maskBytesLen_length]
          omega
        · exact zipWith_land_lt ip2 (maskBytes ones) hlt
        · show maskedApply _ _ = _
          unfold maskedApply
          have hlen2 : (List.zipWith (fun a m => a &&& m) ip2 (maskBytes ones)).length = 4 := by
            simp only [List.length_zipWith, maskBytes, maskBytesLen_length]
            omega
          rw [hlen2]
          exact zipWith_land_mask_idem ip2 (maskBytes ones) hlt (maskBytesLen_byte_form 4 ones)
      · rw [if_neg hones] at h
        exact absurd h (by simp)
    | _ :: _ :: _ => exact absurd h (by simp)

/-! ### Pool membership -/

theorem pow256_four : (256 : Nat) ^ 4 = 2 ^ 32 := by norm_num

theorem pow256_three : (256 : Nat) ^ 3 = 2 ^ 24 := by norm_num

theorem add_le_of_mod_eq_zero (k B P : Nat) (hkpos : 0 < k) (hkd : k ∣ P) (hB : B < P)
    (hBk : B % k = 0) : B + k ≤ P := by
  obtain ⟨m, hm⟩ := hkd
  have hq : k * (B / k) = B := Nat.mul_div_cancel' (Nat.dvd_of_mod_eq_zero hBk)
  have h1 : B / k < m := by
    by_contra hc
    push_neg at hc
    have := Nat.mul_le_mul_left k hc
    omega
  have h2 : k * (B / k + 1) ≤ k * m := Nat.mul_le_mul_left k (by omega)
  have h3 : k * (B / k + 1) = k * (B / k) + k := by ring
  omega

theorem poolSize_pos (rng : IPNet) : 0 < rng.poolSize := by
  unfold IPNet.poolSize
  positivity

theorem baseN_mod (rng : IPNet) (h : ParsedRange rng) : rng.baseN % rng.poolSize = 0 := by
  obtain ⟨hlen, hbytes, hones, hmask⟩ := h
  have := masked_bytesToNat_mod rng.ip rng.maskOnes hbytes (by omega) hmask
  unfold IPNet.baseN IPNet.poolSize
  rw [hlen] at this
  have he : 8 * 4 - rng.maskOnes = 32 - rng.maskOnes := by norm_num
  rw [he] at this
  exact this

theorem baseN_lt (rng : IPNet) (h : ParsedRange rng) : rng.baseN < 2 ^ 32 := by
  obtain ⟨hlen, hbytes, _, _⟩ := h
  have := bytesToNat_lt rng.ip hbytes
  rw [hlen, pow256_four] at this
  exact this

theorem poolSize_dvd (rng : IPNet) (h : ParsedRange rng) : rng.poolSize ∣ 2 ^ 32 := by
  unfold IPNet.poolSize
  exact pow_dvd_pow 2 (by omega)

theorem baseN_add_poolSize_le (rng : IPNet) (h : ParsedRange rng) :
    rng.baseN + rng.poolSize ≤ 2 ^ 32 :=
  add_le_of_mod_eq_zero rng.poolSize rng.baseN (2 ^ 32) (poolSize_pos rng)
    (poolSize_dvd rng h) (baseN_lt rng h) (baseN_mod rng h)

theorem contains_natBytes_iff (rng : IPNet) (h : ParsedRange rng) (n : Nat) :
    rng.containsBytes (natBytes n) = true ↔ 2 ^ 24 ≤ n ∧ n < 2 ^ 32 ∧ inPool rng n := by
  obtain ⟨hlen, hbytes, hones, hmask⟩ := h
  by_cases hlo : 2 ^ 24 ≤ n
  · by_cases hhi : n < 2 ^ 32
    · have h4 : (natBytes n).length = 4 := natBytes_length_four n hlo hhi
      have hiff := maskedEqL_iff_interval rng.ip (natBytes n) rng.maskOnes
        (by rw [h4, hlen]) (by rw [hlen]; omega) hbytes (natBytes_mem_lt n) hmask
      rw [hlen, bytesToNat_natBytes] at hiff
      have he : 8 * 4 - rng.maskOnes = 32 - rng.maskOnes := by norm_num
      rw [he] at hiff
      unfold IPNet.containsBytes to4
      rw [if_pos h4]
      dsimp only
      rw [h4, hlen]
      simp only [beq_self_eq_true, Bool.true_and]
      rw [show maskBytes rng.maskOnes = maskBytesLen 4 rng.maskOnes from rfl, hiff]
      unfold inPool IPNet.baseN IPNet.poolSize
      constructor
      · rintro ⟨h1, h2⟩
        exact ⟨hlo, hhi, h1, h2⟩
      · rintro ⟨_, _, h1, h2⟩
        exact ⟨h1, h2⟩
    · have hlen5 : ¬(natBytes n).length ≤ 4 := by
        rw [natBytes_length_le_iff, pow256_four]
        omega
      unfold IPNet.containsBytes to4
      rw [if_neg (by omega)]
      rw [if_neg ?hc]
      case hc =>
        rintro ⟨h16, htk⟩
        obtain ⟨b, t, hbt, hb⟩ := natBytes_head_ne_zero n (by omega)
        rw [hbt, show (12 : Nat) = 11 + 1 from rfl, List.take_succ_cons] at htk
        simp only [List.cons.injEq] at htk
        exact hb htk.1
      dsimp only
      constructor
      · intro hc
        exact absurd hc (by simp)
      · rintro ⟨_, h2, _⟩
        omega
  · have hle3 : (natBytes n).length ≤ 3 := by
      rw [natBytes_length_le_iff, pow256_three]
      omega
    unfold IPNet.containsBytes to4
    rw [if_neg (by omega), if_neg (by rintro ⟨h16, _⟩; omega)]
    dsimp only
    constructor
    · intro hc
      exact absurd hc (by simp)
    · rintro ⟨h1, _, _⟩
      exact absurd h1 hlo

theorem contains_natBytes_iff_good (rng : IPNet) (h : RangeGood rng) (n : Nat) :
    rng.containsBytes (natBytes n) = true ↔ inPool rng n := by
  obtain ⟨hp, hbase⟩ := h
  rw [contains_natBytes_iff rng hp n]
  constructor
  · rintro ⟨_, _, hip⟩
    exact hip
  · intro hip
    obtain ⟨h1, h2⟩ := hip
    have h3 := baseN_add_poolSize_le rng hp
    exact ⟨le_trans hbase h1, by omega, h1, h2⟩

theorem inPool_bounds (rng : IPNet) (h : RangeGood rng) (n : Nat) (hn : inPool rng n) :
    2 ^ 24 ≤ n ∧ n < 2 ^ 32 := by
  obtain ⟨hp, hbase⟩ := h
  obtain ⟨h1, h2⟩ := hn
  have h3 := baseN_add_poolSize_le rng hp
  exact ⟨le_trans hbase h1, by omega⟩

/-! ### Cursor stepping -/

theorem inPool_baseN (rng : IPNet) : inPool rng rng.baseN :=
  ⟨le_refl _, by have := poolSize_pos rng; omega⟩

theorem advanceCursor_inPool (rng : IPNet) (h : ParsedRange rng) (cur : Nat)
    (hc : inPool rng cur) : inPool rng (advanceCursor rng cur) := by
  unfold advanceCursor
  by_cases hcont : rng.containsBytes (natBytes (cur + 1)) = true
  · rw [if_pos hcont]
    exact ((contains_natBytes_iff rng h (cur + 1)).mp hcont).2.2
  · rw [if_neg hcont]
    exact inPool_baseN rng

theorem advanceCursor_iterate_inPool (rng : IPNet) (h : ParsedRange rng) (cur : Nat)
    (hc : inPool rng cur) (k : Nat) : inPool rng ((advanceCursor rng)^[k] cur) := by
  induction k with
  | zero => simpa using hc
  | succ k ih =>
    rw [Function.iterate_succ_apply']
    exact advanceCursor_inPool rng h _ ih

theorem advanceCursor_eq_good (rng : IPNet) (h : RangeGood rng) (cur : Nat)
    (hc : inPool rng cur) :
    advanceCursor rng cur =
      if cur + 1 < rng.baseN + rng.poolSize then cur + 1 else rng.baseN := by
  unfold advanceCursor
  by_cases hlt : cur + 1 < rng.baseN + rng.poolSize
  · rw [if_pos hlt, if_pos ?hcont]
    case hcont =>
      rw [contains_natBytes_iff_good rng h (cur + 1)]
      exact ⟨by obtain ⟨h1, _⟩ := hc; omega, hlt⟩
  · rw [if_neg hlt, if_neg ?hncont]
    · rfl
    case hncont =>
      rw [contains_natBytes_iff_good rng h (cur + 1)]
      rintro ⟨_, h2⟩
      omega

theorem advanceCursor_iterate_eq (rng : IPNet) (h : RangeGood rng) (cur : Nat)
    (hc : inPool rng cur) (k : Nat) :
    (advanceCursor rng)^[k] cur =
      rng.baseN + (cur - rng.baseN + k) % rng.poolSize := by
  induction k with
  | zero =>
    obtain ⟨h1, h2⟩ := hc
    simp only [Function.iterate_zero, id_eq, Nat.add_zero]
    rw [Nat.mod_eq_of_lt (by omega)]
    omega
  | succ k ih =>
    rw [Function.iterate_succ_apply', ih]
    have htlt : (cur - rng.baseN + k) % rng.poolSize < rng.poolSize :=
      Nat.mod_lt _ (poolSize_pos rng)
    have hstep := advanceCursor_eq_good rng h
      (rng.baseN + (cur - rng.baseN + k) % rng.poolSize) ⟨by omega, by omega⟩
    rw [hstep]
    have hdm := Nat.div_add_mod (cur - rng.baseN + k) rng.poolSize
    by_cases hwrap : rng.baseN + (cur - rng.baseN + k) % rng.poolSize + 1 <
        rng.baseN + rng.poolSize
    · rw [if_pos hwrap]
      have hdecomp : cur - rng.baseN + (k + 1) =
          rng.poolSize * ((cur - rng.baseN + k) / rng.poolSize) +
            ((cur - rng.baseN + k) % rng.poolSize + 1) := by omega
      have hlt2 : (cur - rng.baseN + k) % rng.poolSize + 1 < rng.poolSize := by omega
      rw [hdecomp, Nat.mul_add_mod, Nat.mod_eq_of_lt hlt2]
      omega
    · rw [if_neg hwrap]
      have hx : rng.poolSize * ((cur - rng.baseN + k) / rng.poolSize + 1) =
          rng.poolSize * ((cur - rng.baseN + k) / rng.poolSize) + rng.poolSize := by ring
      have hdecomp : cur - rng.baseN + (k + 1) =
          rng.poolSize * ((cur - rng.baseN + k) / rng.poolSize + 1) := by omega
      rw [hdecomp, Nat.mul_mod_right]
      omega

theorem advanceCursor_iterate_inj (rng : IPNet) (h : RangeGood rng) (cur : Nat)
    (hc : inPool rng cur) (k1 k2 : Nat) (h1 : k1 < rng.poolSize) (h2 : k2 < rng.poolSize)
    (heq : (advanceCursor rng)^[k1] cur = (advanceCursor rng)^[k2] cur) : k1 = k2 := by
  rw [advanceCursor_iterate_eq rng h cur hc k1,
    advanceCursor_iterate_eq rng h cur hc k2] at heq
  have heq2 : (cur - rng.baseN + k1) % rng.poolSize =
      (cur - rng.baseN + k2) % rng.poolSize := by omega
  have hm2 : Nat.ModEq rng.poolSize k1 k2 :=
    Nat.ModEq.add_left_cancel' (cur - rng.baseN) heq2
  have h3 : k1 % rng.poolSize = k2 % rng.poolSize := hm2
  rw [Nat.mod_eq_of_lt h1, Nat.mod_eq_of_lt h2] at h3
  exact h3

theorem candidate_inj (rng : IPNet) (h : RangeGood rng) (m n : Nat)
    (hm : inPool rng m) (hn : inPool rng n)
    (heq : IPAddress (natBytes m) = IPAddress (natBytes n)) : m = n := by
  obtain ⟨hm1, hm2⟩ := inPool_bounds rng h m hm
  obtain ⟨hn1, hn2⟩ := inPool_bounds rng h n hn
  rw [natBytes_four m hm1 hm2, natBytes_four n hn1 hn2] at heq
  simp only [IPAddress, Option.some.injEq, Address.ipv4.injEq] at heq
  omega

/-! ### The allocation loop -/

theorem allocLoop_success (cache : Lru) (rng : IPNet) :
    ∀ (fuel cur : Nat),
      (∃ k < fuel,
        cache.getKeyFromValue (IPAddress (natBytes ((advanceCursor rng)^[k] cur))) = none) →
      (allocLoop cache rng fuel cur).isSome = true := by
  intro fuel
  induction fuel with
  | zero =>
    rintro cur ⟨k, hk, _⟩
    omega
  | succ fuel ih =>
    rintro cur ⟨k, hk, hfree⟩
    unfold allocLoop
    dsimp only
    by_cases hblocked :
        (cache.getKeyFromValue (IPAddress (natBytes cur))).isSome = true
    · rw [if_pos hblocked]
      apply ih
      cases k with
      | zero =>
        simp only [Function.iterate_zero, id_eq] at hfree
        rw [hfree] at hblocked
        simp at hblocked
      | succ k =>
        refine ⟨k, by omega, ?_⟩
        rw [← Function.iterate_succ_apply]
        exact hfree
    · rw [if_neg hblocked]
      rfl

theorem allocLoop_spec (cache : Lru) (rng : IPNet) :
    ∀ (fuel cur : Nat) (ip : Option Address) (cur2 : Nat),
      allocLoop cache rng fuel cur = some (ip, cur2) →
      cache.getKeyFromValue ip = none ∧
        ∃ c, ip = IPAddress (natBytes c) ∧ cur2 = advanceCursor rng c ∧
          ∃ k, c = (advanceCursor rng)^[k] cur := by
  intro fuel
  induction fuel with
  | zero =>
    intro cur ip cur2 h
    exact absurd h (by simp [allocLoop])
  | succ fuel ih =>
    intro cur ip cur2 h
    unfold allocLoop at h
    dsimp only at h
    by_cases hb : (cache.getKeyFromValue (IPAddress (natBytes cur))).isSome = true
    · rw [if_pos hb] at h
      obtain ⟨hfree, c, hip, hcur2, k, hk⟩ := ih (advanceCursor rng cur) ip cur2 h
      refine ⟨hfree, c, hip, hcur2, k + 1, ?_⟩
      rw [Function.iterate_succ_apply]
      exact hk
    · rw [if_neg hb] at h
      simp only [Option.some.injEq, Prod.mk.injEq] at h
      obtain ⟨rfl, rfl⟩ := h
      refine ⟨Option.not_isSome_iff_eq_none.mp hb, cur, rfl, rfl, 0, rfl⟩

theorem exists_free_candidate (cache : Lru) (rng : IPNet) (h : RangeGood rng) (cur : Nat)
    (hc : inPool rng cur) (hcount : cache.entries.length < rng.poolSize) :
    ∃ k < rng.poolSize,
      cache.getKeyFromValue (IPAddress (natBytes ((advanceCursor rng)^[k] cur))) = none := by
  by_contra hall
  push_neg at hall
  have hblocked : ∀ k < rng.poolSize,
      IPAddress (natBytes ((advanceCursor rng)^[k] cur)) ∈
        cache.entries.map Prod.snd := by
    intro k hk
    have hne := hall k hk
    unfold Lru.getKeyFromValue at hne
    rcases hfind : cache.entries.find?
        (fun e => decide (e.2 = IPAddress (natBytes ((advanceCursor rng)^[k] cur)))) with
        _ | e
    · rw [hfind] at hne
      simp at hne
    · have hmem := List.mem_of_find?_eq_some hfind
      have hval := List.find?_some hfind
      simp only [decide_eq_true_eq] at hval
      rw [← hval]
      exact List.mem_map.mpr ⟨e, hmem, rfl⟩
  have hnodup : ((List.range rng.poolSize).map
      (fun k => IPAddress (natBytes ((advanceCursor rng)^[k] cur)))).Nodup := by
    apply List.Nodup.map_on ?_ (List.nodup_range _)
    intro k1 hk1 k2 hk2 heq
    rw [List.mem_range] at hk1 hk2
    apply advanceCursor_iterate_inj rng h cur hc k1 k2 hk1 hk2
    exact candidate_inj rng h _ _
      (advanceCursor_iterate_inPool rng h.1 cur hc k1)
      (advanceCursor_iterate_inPool rng h.1 cur hc k2) heq
  have hsubset : ((List.range rng.poolSize).map
      (fun k => IPAddress (natBytes ((advanceCursor rng)^[k] cur)))).toFinset ⊆
      (cache.entries.map Prod.snd).toFinset := by
    intro v hv
    rw [List.mem_toFinset] at hv
    rw [List.mem_toFinset]
    obtain ⟨k, hk, rfl⟩ := List.mem_map.mp hv
    exact hblocked k (List.mem_range.mp hk)
  have hcard1 : ((List.range rng.poolSize).map
      (fun k => IPAddress (natBytes ((advanceCursor rng)^[k] cur)))).toFinset.card =
      rng.poolSize := by
    rw [List.toFinset_card_of_nodup hnodup, List.length_map, List.length_range]
  have hcard2 := Finset.card_le_card hsubset
  have hcard3 := List.toFinset_card_le (cache.entries.map Prod.snd)
  rw [hcard1] at hcard2
  rw [List.length_map] at hcard3
  omega

theorem allocLoop_success_good (cache : Lru) (rng : IPNet) (h : RangeGood rng) (cur : Nat)
    (hc : inPool rng cur) (hcount : cache.entries.length < rng.poolSize)
    (fuel : Nat) (hfuel : rng.poolSize ≤ fuel) :
    (allocLoop cache rng fuel cur).isSome = true := by
  obtain ⟨k, hk, hfree⟩ := exists_free_candidate cache rng h cur hc hcount
  exact allocLoop_success cache rng fuel cur ⟨k, by omega, hfree⟩

/-! ### LRU cache lemmas -/

theorem find?_eraseP_perm {α : Type} (p : α → Bool) :
    ∀ (l : List α) (e : α), l.find? p = some e → l.Perm (e :: l.eraseP p) := by
  intro l
  induction l with
  | nil =>
    intro e h
    simp at h
  | cons a l ih =>
    intro e h
    by_cases hpa : p a = true
    · rw [List.find?_cons_of_pos _ hpa] at h
      obtain rfl : a = e := by injection h
      rw [List.eraseP_cons_of_pos hpa]
    · rw [List.find?_cons_of_neg _ hpa] at h
      rw [List.eraseP_cons_of_neg hpa]
      exact ((ih e h).cons a).trans (List.Perm.swap e a _)

theorem find?_key_none_iff (entries : List (String × Option Address)) (k : String) :
    entries.find? (fun e => decide (e.1 = k)) = none ↔
      k ∉ entries.map Prod.fst := by
  rw [List.find?_eq_none]
  constructor
  · intro h hk
    obtain ⟨e, he, hek⟩ := List.mem_map.mp hk
    exact h e he (by simp [hek])
  · intro h e he
    simp only [decide_eq_true_eq]
    intro hek
    exact h (List.mem_map.mpr ⟨e, he, hek⟩)

theorem find?_val_none_iff (entries : List (String × Option Address)) (v : Option Address) :
    entries.find? (fun e => decide (e.2 = v)) = none ↔
      v ∉ entries.map Prod.snd := by
  rw [List.find?_eq_none]
  constructor
  · intro h hk
    obtain ⟨e, he, hek⟩ := List.mem_map.mp hk
    exact h e he (by simp [hek])
  · intro h e he
    simp only [decide_eq_true_eq]
    intro hek
    exact h (List.mem_map.mpr ⟨e, he, hek⟩)

theorem getKeyFromValue_none_iff (l : Lru) (v : Option Address) :
    l.getKeyFromValue v = none ↔ v ∉ l.entries.map Prod.snd := by
  unfold Lru.getKeyFromValue
  rw [Option.map_eq_none']
  exact find?_val_none_iff l.entries v

/-- The state after `get`: miss leaves the cache unchanged, hit moves the
found entry to the front, a permutation of the entries. -/
theorem get_cases (l : Lru) (k : String) :
    (l.entries.find? (fun e => decide (e.1 = k)) = none ∧ l.get k = (none, l)) ∨
      (∃ e, l.entries.find? (fun e2 => decide (e2.1 = k)) = some e ∧ e.1 = k ∧
        l.get k = (some e.2, ⟨l.capacity, e :: l.entries.eraseP (fun e2 => decide (e2.1 = k))⟩) ∧
        l.entries.Perm (e :: l.entries.eraseP (fun e2 => decide (e2.1 = k)))) := by
  rcases hf : l.entries.find? (fun e => decide (e.1 = k)) with _ | e
  · left
    refine ⟨hf, ?_⟩
    unfold Lru.get
    rw [hf]
  · right
    refine ⟨e, hf, ?_, ?_, find?_eraseP_perm _ l.entries e hf⟩
    · have := List.find?_some hf
      simpa using this
    · unfold Lru.get
      rw [hf]

theorem get_capacity (l : Lru) (k : String) : (l.get k).2.capacity = l.capacity := by
  rcases get_cases l k with ⟨_, h⟩ | ⟨e, _, _, h, _⟩ <;> rw [h]

theorem get_entries_perm (l : Lru) (k : String) : l.entries.Perm (l.get k).2.entries := by
  rcases get_cases l k with ⟨_, h⟩ | ⟨e, _, _, h, hperm⟩
  · rw [h]
  · rw [h]
    exact hperm

theorem bijective_of_perm (l1 l2 : List (String × Option Address))
    (hp : l1.Perm l2) (h : (l1.map Prod.fst).Nodup ∧ (l1.map Prod.snd).Nodup) :
    (l2.map Prod.fst).Nodup ∧ (l2.map Prod.snd).Nodup :=
  ⟨((hp.map Prod.fst).nodup_iff).mp h.1, ((hp.map Prod.snd).nodup_iff).mp h.2⟩

theorem get_bijective (l : Lru) (k : String) (h : l.bijective) : ((l.get k).2).bijective :=
  bijective_of_perm l.entries (l.get k).2.entries (get_entries_perm l k) h

/-- `put` of a key not in the cache: the new entry goes to the front and the
last entry is dropped when the capacity is exceeded. -/
theorem put_fresh (l : Lru) (k : String) (v : Option Address)
    (hk : k ∉ l.entries.map Prod.fst) :
    l.put k v = ⟨l.capacity,
      if l.capacity < (((k, v) :: l.entries).length : Int) then ((k, v) :: l.entries).dropLast
      else (k, v) :: l.entries⟩ := by
  unfold Lru.put
  rw [(find?_key_none_iff l.entries k).mpr hk]
  rfl

theorem put_fresh_bijective (l : Lru) (k : String) (v : Option Address)
    (hk : k ∉ l.entries.map Prod.fst) (hv : v ∉ l.entries.map Prod.snd)
    (h : l.bijective) : (l.put k v).bijective := by
  rw [put_fresh l k v hk]
  have hcons : (((k, v) :: l.entries).map Prod.fst).Nodup ∧
      (((k, v) :: l.entries).map Prod.snd).Nodup := by
    constructor
    · simp only [List.map_cons, List.nodup_cons]
      exact ⟨hk, h.1⟩
    · simp only [List.map_cons, List.nodup_cons]
      exact ⟨hv, h.2⟩
  unfold Lru.bijective
  by_cases hcap : l.capacity < (((k, v) :: l.entries).length : Int)
  · rw [if_pos hcap]
    dsimp only
    constructor
    · exact ((List.dropLast_sublist _).map Prod.fst).nodup hcons.1
    · exact ((List.dropLast_sublist _).map Prod.snd).nodup hcons.2
  · rw [if_neg hcap]
    exact hcons

theorem put_fresh_length (l : Lru) (k : String) (v : Option Address)
    (hk : k ∉ l.entries.map Prod.fst)
    (hlen : (l.entries.length : Int) ≤ max 0 l.capacity) :
    ((l.put k v).entries.length : Int) ≤ max 0 l.capacity := by
  rw [put_fresh l k v hk]
  by_cases hcap : l.capacity < (((k, v) :: l.entries).length : Int)
  · rw [if_pos hcap]
    dsimp only
    rw [List.length_dropLast]
    simp only [List.length_cons]
    omega
  · rw [if_neg hcap]
    simp only [List.length_cons] at hcap ⊢
    omega

theorem put_capacity (l : Lru) (k : String) (v : Option Address) :
    (l.put k v).capacity = l.capacity := by
  unfold Lru.put
  by_cases hf : (l.entries.find? (fun e => decide (e.1 = k))).isSome = true
  · rw [if_pos hf]
  · rw [if_neg hf]

theorem put_fresh_mem (l : Lru) (k : String) (v : Option Address)
    (hk : k ∉ l.entries.map Prod.fst) :
    ∀ e ∈ (l.put k v).entries, e = (k, v) ∨ e ∈ l.entries := by
  rw [put_fresh l k v hk]
  intro e he
  by_cases hcap : l.capacity < (((k, v) :: l.entries).length : Int)
  · rw [if_pos hcap] at he
    have := (List.dropLast_sublist ((k, v) :: l.entries)).mem he
    simpa using this
  · rw [if_neg hcap] at he
    simpa using he

/-! ### Holder operation shapes -/

theorem maskBytes_eq (ones : Nat) : maskBytes ones = maskBytesLen 4 ones := rfl

theorem maskedEqL_of_masked_self :
    ∀ (ip ms : List Nat), ip.length = ms.length → (∀ b ∈ ip, b < 256) →
      (∀ m ∈ ms, ∃ j ≤ 8, m = 256 - 2 ^ j) →
      maskedEqL (List.zipWith (fun a m => a &&& m) ip ms) ip ms = true := by
  intro ip
  induction ip with
  | nil =>
    intro ms hlen _ _
    obtain rfl : ms = [] := List.length_eq_zero.mp (by simpa using hlen.symm)
    rfl
  | cons a ip ih =>
    intro ms hlen hbs hms
    cases ms with
    | nil => simp at hlen
    | cons m ms =>
      simp only [List.zipWith_cons_cons, maskedEqL, Bool.and_eq_true, beq_iff_eq]
      obtain ⟨j, hj, rfl⟩ := hms m (by simp)
      refine ⟨land_mask_byte_idem a j (hbs a (by simp)) hj, ?_⟩
      exact ih ms (by simpa using hlen) (fun y hy => hbs y (by simp [hy]))
        (fun y hy => hms y (by simp [hy]))

theorem parsed_ip_inPool (s : String) (ip : List Nat) (rng : IPNet)
    (h : parseCIDR s = some (ip, rng)) : inPool rng (bytesToNat ip) := by
  obtain ⟨hlen, hbytes, hipeq, hp⟩ := parseCIDR_shape s ip rng h
  obtain ⟨hlen2, hbytes2, hones, hmask⟩ := hp
  have hme : maskedEqL rng.ip ip (maskBytesLen rng.ip.length rng.maskOnes) = true := by
    rw [hlen2, ← maskBytes_eq, hipeq]
    exact maskedEqL_of_masked_self ip (maskBytes rng.maskOnes)
      (by rw [hlen, maskBytes_eq, maskBytesLen_length]) hbytes
      (maskBytesLen_byte_form 4 _)
  have hint := (maskedEqL_iff_interval rng.ip ip rng.maskOnes (by rw [hlen, hlen2])
    (by rw [hlen2]; omega) hbytes2 hbytes hmask).mp hme
  unfold inPool IPNet.baseN IPNet.poolSize
  rw [hlen2] at hint
  have he : 8 * 4 - rng.maskOnes = 32 - rng.maskOnes := by norm_num
  rw [he] at hint
  exact hint

theorem initialize_spec (h : Holder) (s : String) (cap : Int) (h2 : Holder)
    (hinit : Holder.initialize h s cap = some h2) :
    ∃ ip rng, parseCIDR s = some (ip, rng) ∧
      ¬((2 : Int) ^ (32 - rng.maskOnes) ≤ cap) ∧
      h2 = { h with
             domainToIP := some (NewLru cap)
             ipRange := some rng
             nextIP := some (bytesToNat ip) } := by
  unfold Holder.initialize at hinit
  rcases hp : parseCIDR s with _ | ⟨ip, rng⟩
  · rw [hp] at hinit
    exact absurd hinit (by simp)
  · rw [hp] at hinit
    dsimp only at hinit
    by_cases hcap : (2 : Int) ^ (32 - rng.maskOnes) ≤ cap
    · rw [if_pos hcap] at hinit
      exact absurd hinit (by simp)
    · rw [if_neg hcap] at hinit
      simp only [Option.some.injEq] at hinit
      exact ⟨ip, rng, rfl, hcap, hinit.symm⟩

theorem getIP_spec (h : Holder) (fuel : Nat) (d : String) (r : List (Option Address))
    (h2 : Holder) (hcall : h.GetFakeIPForDomain fuel d = some (r, h2)) :
    ∃ cache cur rng, h.domainToIP = some cache ∧ h.nextIP = some cur ∧
      h.ipRange = some rng ∧
      ((∃ e, cache.entries.find? (fun e2 => decide (e2.1 = d)) = some e ∧ e.1 = d ∧
          (∃ a, e.2 = some a) ∧ r = [e.2] ∧
          h2 = { h with domainToIP := some ⟨cache.capacity,
            e :: cache.entries.eraseP (fun e2 => decide (e2.1 = d))⟩ }) ∨
        (cache.entries.find? (fun e2 => decide (e2.1 = d)) = none ∧
          ∃ ip cur2, allocLoop cache rng fuel cur = some (ip, cur2) ∧ r = [ip] ∧
            h2 = { h with
                   domainToIP := some (cache.put d ip)
                   nextIP := some cur2 })) := by
  unfold Holder.GetFakeIPForDomain at hcall
  rcases hdt : h.domainToIP with _ | cache
  · rw [hdt] at hcall
    exact absurd hcall (by simp)
  rcases hni : h.nextIP with _ | cur
  · rw [hdt, hni] at hcall
    exact absurd hcall (by simp)
  rcases hir : h.ipRange with _ | rng
  · rw [hdt, hni, hir] at hcall
    exact absurd hcall (by simp)
  rw [hdt, hni, hir] at hcall
  dsimp only at hcall
  refine ⟨cache, cur, rng, rfl, rfl, rfl, ?_⟩
  rcases get_cases cache d with ⟨hfind, hget⟩ | ⟨e, hfind, hek, hget, hperm⟩
  · rw [hget] at hcall
    dsimp only at hcall
    right
    rcases hloop : allocLoop cache rng fuel cur with _ | ⟨ip, cur2⟩
    · rw [hloop] at hcall
      exact absurd hcall (by simp)
    · rw [hloop] at hcall
      simp only [Option.some.injEq, Prod.mk.injEq] at hcall
      exact ⟨hfind, ip, cur2, rfl, hcall.1.symm, hcall.2.symm⟩
  · rw [hget] at hcall
    left
    rcases hv : e.2 with _ | a
    · rw [hv] at hcall
      dsimp only at hcall
      exact absurd hcall (by simp)
    · rw [hv] at hcall
      dsimp only at hcall
      simp only [Option.some.injEq, Prod.mk.injEq] at hcall
      refine ⟨e, hfind, hek, ⟨a, hv⟩, ?_, hcall.2.symm⟩
      rw [hv]
      exact hcall.1.symm

/-! ### Reachability invariants -/

/-- Every reachable holder's cache is a partial bijection whose live count
stays within the capacity. -/
theorem reachable_cache_invariant (h : Holder) (hr : Reachable h) :
    ∀ cache, h.domainToIP = some cache →
      cache.bijective ∧ (cache.entries.length : Int) ≤ max 0 cache.capacity := by
  induction hr with
  | init h0 s cap h2 hinit =>
    intro cache hc
    obtain ⟨ip, rng, hp, hcap, rfl⟩ := initialize_spec h0 s cap h2 hinit
    obtain rfl : NewLru cap = cache := by simpa using hc
    refine ⟨⟨by simp [NewLru], by simp [NewLru]⟩, ?_⟩
    simp only [NewLru]
    exact le_max_left 0 cap
  | getIP h0 fuel d r h2 hr0 hcall ih =>
    intro cache2 hc2
    obtain ⟨cache, cur, rng, hdt, hni, hir, hcase⟩ := getIP_spec h0 fuel d r h2 hcall
    obtain ⟨hbij, hlen⟩ := ih cache hdt
    rcases hcase with ⟨e, hfind, hek, _, hr2, rfl⟩ | ⟨hfind, ip, cur2, hloop, hr2, rfl⟩
    · obtain rfl : (⟨cache.capacity,
          e :: cache.entries.eraseP (fun e2 => decide (e2.1 = d))⟩ : Lru) = cache2 := by
        simpa using hc2
      have hperm := find?_eraseP_perm _ cache.entries e hfind
      refine ⟨bijective_of_perm _ _ hperm hbij, ?_⟩
      dsimp only
      rw [← hperm.length_eq]
      exact hlen
    · obtain rfl : cache.put d ip = cache2 := by simpa using hc2
      have hkey : d ∉ cache.entries.map Prod.fst := (find?_key_none_iff _ _).mp hfind
      obtain ⟨hfree, _⟩ := allocLoop_spec cache rng fuel cur ip cur2 hloop
      have hval : ip ∉ cache.entries.map Prod.snd := (getKeyFromValue_none_iff _ _).mp hfree
      refine ⟨put_fresh_bijective cache d ip hkey hval hbij, ?_⟩
      rw [put_capacity]
      exact put_fresh_length cache d ip hkey hlen
  | getDomain h0 ip s hr0 hcall ih => exact ih

/-- Every reachable holder has a parsed pool range and a cursor denoting an
address inside it. -/
theorem reachable_range_cursor (h : Holder) (hr : Reachable h) :
    ∀ rng, h.ipRange = some rng →
      ParsedRange rng ∧ ∀ cur, h.nextIP = some cur → inPool rng cur := by
  induction hr with
  | init h0 s cap h2 hinit =>
    intro rng hrng
    obtain ⟨ip, rng2, hp, hcap, rfl⟩ := initialize_spec h0 s cap h2 hinit
    obtain rfl : rng2 = rng := by simpa using hrng
    obtain ⟨_, _, _, hparsed⟩ := parseCIDR_shape s ip rng2 hp
    refine ⟨hparsed, ?_⟩
    intro cur hcur
    obtain rfl : bytesToNat ip = cur := by simpa using hcur
    exact parsed_ip_inPool s ip rng2 hp
  | getIP h0 fuel d r h2 hr0 hcall ih =>
    intro rng hrng
    obtain ⟨cache, cur, rng2, hdt, hni, hir, hcase⟩ := getIP_spec h0 fuel d r h2 hcall
    rcases hcase with ⟨e, hfind, hek, _, hr2, rfl⟩ | ⟨hfind, ip, cur2, hloop, hr2, rfl⟩
    · have hrng0 : h0.ipRange = some rng := by simpa using hrng
      obtain ⟨hparsed, hcurf⟩ := ih rng hrng0
      refine ⟨hparsed, ?_⟩
      intro cur3 hcur3
      exact hcurf cur3 (by simpa using hcur3)
    · have hrng0 : h0.ipRange = some rng := by simpa using hrng
      obtain ⟨hparsed, hcurf⟩ := ih rng hrng0
      obtain rfl : rng2 = rng := by
        rw [hir] at hrng0
        injection hrng0
      refine ⟨hparsed, ?_⟩
      intro cur3 hcur3
      obtain rfl : cur2 = cur3 := by simpa using hcur3
      obtain ⟨_, c, _, hcur2, k, hk⟩ := allocLoop_spec cache rng2 fuel cur ip cur2 hloop
      have hcurp : inPool rng2 cur := hcurf cur hni
      have hcpool : inPool rng2 c := by
        rw [hk]
        exact advanceCursor_iterate_inPool rng2 hparsed cur hcurp k
      rw [hcur2]
      exact advanceCursor_inPool rng2 hparsed c hcpool
  | getDomain h0 ip s hr0 hcall ih => exact ih

/-! ### Round-trip helpers -/

/-- A pool address's candidate value is a well-formed IPv4 address whose byte
form is accepted by the range test. -/
theorem pool_addr_reverse (rng : IPNet) (h : RangeGood rng) (n : Nat) (hn : inPool rng n) :
    ∃ a : Address, IPAddress (natBytes n) = some a ∧ a.familyIsIP = true ∧
      a.ipBytes = natBytes n ∧ rng.containsBytes a.ipBytes = true := by
  obtain ⟨h1, h2⟩ := inPool_bounds rng h n hn
  have hb : natBytes n = [n / 2 ^ 24, n / 2 ^ 16 % 256, n / 2 ^ 8 % 256, n % 256] :=
    natBytes_four n h1 h2
  refine ⟨Address.ipv4 (n / 2 ^ 24) (n / 2 ^ 16 % 256) (n / 2 ^ 8 % 256) (n % 256),
    ?_, rfl, ?_, ?_⟩
  · rw [hb]
    rfl
  · rw [hb]
    rfl
  · show rng.containsBytes [n / 2 ^ 24, n / 2 ^ 16 % 256, n / 2 ^ 8 % 256, n % 256] = true
    rw [← hb, contains_natBytes_iff_good rng h n]
    exact hn

/-- Writing back the cache a holder already carries leaves it unchanged. -/
theorem holder_set_same_cache (h : Holder) (cache : Lru)
    (hdt : h.domainToIP = some cache) :
    ({ h with domainToIP := some cache } : Holder) = h := by
  rw [← hdt]

/-- Rebuilding a holder from its own (unwrapped) fields gives it back. -/
theorem holder_eta (h : Holder) (cache : Lru) (cur : Nat) (rng : IPNet)
    (hdt : h.domainToIP = some cache) (hni : h.nextIP = some cur)
    (hir : h.ipRange = some rng) :
    (⟨some cache, some cur, some rng, h.config⟩ : Holder) = h := by
  rw [← hdt, ← hni, ← hir]

theorem getKeyFromValue_head (l : Lru) (k : String) (v : Option Address)
    (tl : List (String × Option Address)) (h : l.entries = (k, v) :: tl) :
    l.getKeyFromValue v = some k := by
  unfold Lru.getKeyFromValue
  rw [h, List.find?_cons_of_pos _ (by simp)]
  rfl

/-- A forward-lookup hit on a proper (non-nil) cached address: when the
requested domain heads the entry list the call returns the cached address and
leaves the holder unchanged. -/
theorem getIP_hit (h : Holder) (cache : Lru) (cur : Nat) (rng : IPNet)
    (hdt : h.domainToIP = some cache) (hni : h.nextIP = some cur)
    (hir : h.ipRange = some rng) (fuel : Nat) (d : String) (a : Address)
    (tl : List (String × Option Address)) (hentries : cache.entries = (d, some a) :: tl) :
    h.GetFakeIPForDomain fuel d = some ([some a], h) := by
  unfold Holder.GetFakeIPForDomain
  rw [hdt, hni, hir]
  dsimp only
  have hget : cache.get d = (some (some a), ⟨cache.capacity, (d, some a) :: tl⟩) := by
    unfold Lru.get
    rw [hentries, List.find?_cons_of_pos _ (by simp)]
    dsimp only
    rw [List.eraseP_cons_of_pos (by simp)]
  rw [hget]
  dsimp only
  rw [show (⟨cache.capacity, (d, some a) :: tl⟩ : Lru) = cache from by rw [← hentries]]
  exact congrArg (fun x => some ([some a], x)) (holder_eta h cache cur rng hdt hni hir)

/-- A successful reverse lookup through `GetDomainFromFakeDNS`. -/
theorem getDomain_found (h : Holder) (rng : IPNet) (cache : Lru) (a : Address)
    (hir : h.ipRange = some rng) (hdt : h.domainToIP = some cache)
    (hfam : a.familyIsIP = true) (hcont : rng.containsBytes a.ipBytes = true)
    (k : String) (hk : cache.getKeyFromValue (some a) = some k) :
    h.GetDomainFromFakeDNS a = some k := by
  unfold Holder.GetDomainFromFakeDNS
  rw [hfam]
  simp only [Bool.not_true, Bool.false_eq_true, if_false]
  rw [hir]
  dsimp only
  rw [hcont]
  simp only [Bool.not_true, Bool.false_eq_true, if_false]
  rw [hdt]
  dsimp only
  rw [hk]

/-- After a fresh `put` with positive capacity, the new entry heads the list. -/
theorem put_fresh_head (l : Lru) (k : String) (v : Option Address)
    (hk : k ∉ l.entries.map Prod.fst) (hcap : 1 ≤ l.capacity) :
    ∃ tl, (l.put k v).entries = (k, v) :: tl := by
  rw [put_fresh l k v hk]
  by_cases hc : l.capacity < (((k, v) :: l.entries).length : Int)
  · rw [if_pos hc]
    dsimp only
    have hne : l.entries ≠ [] := by
      intro hnil
      rw [hnil] at hc
      simp at hc
      omega
    rw [List.dropLast_cons_of_ne_nil hne]
    exact ⟨l.entries.dropLast, rfl⟩
  · rw [if_neg hc]
    exact ⟨l.entries, rfl⟩

/-- A fresh `put` with nonnegative capacity keeps the newest `capacity`
entries: it truncates the pushed list to the capacity. -/
theorem put_fresh_take (l : Lru) (k : String) (v : Option Address)
    (hk : k ∉ l.entries.map Prod.fst) (hcap : 0 ≤ l.capacity)
    (hlen : l.entries.length ≤ l.capacity.toNat) :
    (l.put k v).entries = ((k, v) :: l.entries).take l.capacity.toNat := by
  rw [put_fresh l k v hk]
  by_cases hc : l.capacity < (((k, v) :: l.entries).length : Int)
  · rw [if_pos hc]
    dsimp only
    rw [List.dropLast_eq_take]
    simp only [List.length_cons, Nat.add_sub_cancel]
    have : l.entries.length = l.capacity.toNat := by
      simp only [List.length_cons] at hc
      omega
    rw [this]
  · rw [if_neg hc]
    simp only [List.length_cons] at hc
    rw [List.take_of_length_le]
    simp only [List.length_cons]
    omega

/-! ### Eviction order -/

theorem take_cons_take {α : Type} (n : Nat) (x : α) (l : List α) :
    (x :: l.take n).take n = (x :: l).take n := by
  cases n with
  | zero => rfl
  | succ n =>
    rw [List.take_succ_cons, List.take_succ_cons, List.take_take,
      Nat.min_eq_left (by omega)]

/-- Folding fresh-key `put`s over a cache that holds the newest `capacity`
entries of a history `R` keeps exactly the newest `capacity` entries of the
extended history: older entries are evicted in age order. -/
theorem foldl_put_entries (cap : Int) (hcap : 0 ≤ cap) :
    ∀ (ps : List (String × Option Address)) (l : Lru) (R : List (String × Option Address)),
      l.capacity = cap → l.entries = R.take cap.toNat →
      ((ps.map Prod.fst ++ R.map Prod.fst).Nodup) →
      (ps.foldl (fun l2 p => l2.put p.1 p.2) l).entries =
        (ps.reverse ++ R).take cap.toNat := by
  intro ps
  induction ps with
  | nil =>
    intro l R hc he hnd
    simpa using he
  | cons p ps ih =>
    intro l R hc he hnd
    rw [List.foldl_cons]
    have hfresh : p.1 ∉ l.entries.map Prod.fst := by
      intro hmem
      rw [he] at hmem
      have hmem2 : p.1 ∈ R.map Prod.fst := by
        obtain ⟨e, he2, heq⟩ := List.mem_map.mp hmem
        exact List.mem_map.mpr ⟨e, (List.take_sublist _ _).mem he2, heq⟩
      simp only [List.map_cons, List.cons_append, List.nodup_cons] at hnd
      exact hnd.1 (by simp [hmem2])
    have hlen : l.entries.length ≤ l.capacity.toNat := by
      rw [he, hc]
      simp [List.length_take]
    have hput : (l.put p.1 p.2).entries = (p :: R).take cap.toNat := by
      rw [put_fresh_take l p.1 p.2 hfresh (by rw [hc]; exact hcap) hlen, he, hc]
      exact take_cons_take cap.toNat p R
    have hres := ih (l.put p.1 p.2) (p :: R) (by rw [put_capacity, hc]) hput ?nodup
    case nodup =>
      have hperm : (p.1 :: (ps.map Prod.fst ++ R.map Prod.fst)).Perm
          (ps.map Prod.fst ++ p.1 :: R.map Prod.fst) := List.perm_middle.symm
      have hnd2 := hperm.nodup_iff.mp (by simpa using hnd)
      simpa using hnd2
    rw [hres, List.reverse_cons, List.append_assoc, List.singleton_append]

/-- Inserting a fresh key and a fresh value into a cache exactly at capacity
evicts precisely the least-recently-used entry, removing it from both the
forward and the reverse index. -/
theorem put_evicts_lru (l : Lru) (k : String) (v : Option Address)
    (hbij : l.bijective) (hfull : (l.entries.length : Int) = l.capacity)
    (hk : k ∉ l.entries.map Prod.fst) (hv : v ∉ l.entries.map Prod.snd)
    (e : String × Option Address) (hlast : l.entries.getLast? = some e) :
    (l.put k v).entries = (k, v) :: l.entries.dropLast ∧
      (l.put k v).entries.find? (fun e2 => decide (e2.1 = e.1)) = none ∧
      (l.put k v).getKeyFromValue e.2 = none := by
  have hne : l.entries ≠ [] := by
    intro h0
    rw [h0] at hlast
    simp at hlast
  obtain rfl : l.entries.getLast hne = e := by
    rw [List.getLast?_eq_getLast l.entries hne] at hlast
    injection hlast
  have hlastmem : l.entries.getLast hne ∈ l.entries := List.getLast_mem hne
  have hsplit : l.entries.dropLast ++ [l.entries.getLast hne] = l.entries :=
    List.dropLast_append_getLast hne
  have hentries : (l.put k v).entries = (k, v) :: l.entries.dropLast := by
    rw [put_fresh l k v hk, if_pos (by simp only [List.length_cons]; push_cast; omega)]
    dsimp only
    rw [List.dropLast_cons_of_ne_nil hne]
  have hkeysplit : l.entries.dropLast.map Prod.fst ++ [(l.entries.getLast hne).1] =
      l.entries.map Prod.fst := by
    have hc := congrArg (List.map Prod.fst) hsplit
    simpa using hc
  have hvalsplit : l.entries.dropLast.map Prod.snd ++ [(l.entries.getLast hne).2] =
      l.entries.map Prod.snd := by
    have hc := congrArg (List.map Prod.snd) hsplit
    simpa using hc
  refine ⟨hentries, ?_, ?_⟩
  · rw [hentries]
    apply (find?_key_none_iff _ _).mpr
    simp only [List.map_cons, List.mem_cons, not_or]
    constructor
    · intro heq
      exact hk (heq ▸ List.mem_map.mpr ⟨_, hlastmem, rfl⟩)
    · have hnodup : (l.entries.dropLast.map Prod.fst ++
          [(l.entries.getLast hne).1]).Nodup := by
        rw [hkeysplit]
        exact hbij.1
      obtain ⟨_, _, hdisj⟩ := List.nodup_append.mp hnodup
      intro hmem
      exact hdisj hmem (by simp)
  · apply (getKeyFromValue_none_iff _ _).mpr
    rw [hentries]
    simp only [List.map_cons, List.mem_cons, not_or]
    constructor
    · intro heq
      exact hv (heq ▸ List.mem_map.mpr ⟨_, hlastmem, rfl⟩)
    · have hnodup : (l.entries.dropLast.map Prod.snd ++
          [(l.entries.getLast hne).2]).Nodup := by
        rw [hvalsplit]
        exact hbij.2
      obtain ⟨_, _, hdisj⟩ := List.nodup_append.mp hnodup
      intro hmem
      exact hdisj hmem (by simp)

/-! ### Claim theorems -/

/-- C10: `Close` sets the cache, the cursor, and the pool range to nil,
leaves the stored configuration unchanged, and returns a nil error, on every
holder state. -/
theorem claim_C10 (h : Holder) :
    h.Close = (⟨none, none, none, h.config⟩, none) := rfl

/-- C5: `initialize` succeeds exactly when the CIDR parses and the capacity
check passes (the floating-point `log2` test is `2 ^ rooms ≤ lruSize` on
integers, rejecting means returning an error); in particular CIDR
`"240.0.0.0/30"` with capacity 4 is rejected, and on success the pool range,
the cursor and a fresh cache of the given capacity are installed. -/
theorem claim_C5 :
    (∀ (h : Holder) (s : String) (cap : Int),
      ( Holder.initialize h s cap).isSome = true ↔
        ∃ ip rng, parseCIDR s = some (ip, rng) ∧
          ¬((2 : Int) ^ (32 - rng.maskOnes) ≤ cap)) ∧
    Holder.initialize (NewFakeDNSHolderConfigOnly none) "240.0.0.0/30" 4 = none ∧
    (∀ (h : Holder) (s : String) (cap : Int) (ip : List Nat) (rng : IPNet),
      parseCIDR s = some (ip, rng) → ¬((2 : Int) ^ (32 - rng.maskOnes) ≤ cap) →
      Holder.initialize h s cap = some { h with
        domainToIP := some (NewLru cap)
        ipRange := some rng
        nextIP := some (bytesToNat ip) }) := by
  have hbuild : ∀ (h : Holder) (s : String) (cap : Int) (ip : List Nat) (rng : IPNet),
      parseCIDR s = some (ip, rng) → ¬((2 : Int) ^ (32 - rng.maskOnes) ≤ cap) →
      Holder.initialize h s cap = some { h with
        domainToIP := some (NewLru cap)
        ipRange := some rng
        nextIP := some (bytesToNat ip) } := by
    intro h s cap ip rng hp hcap
    unfold Holder.initialize
    rw [hp]
    dsimp only
    rw [if_neg hcap]
  refine ⟨?_, by decide, hbuild⟩
  intro h s cap
  constructor
  · intro hsome
    obtain ⟨h2, hh2⟩ := Option.isSome_iff_exists.mp hsome
    obtain ⟨ip, rng, hp, hcap, _⟩ := initialize_spec h s cap h2 hh2
    exact ⟨ip, rng, hp, hcap⟩
  · rintro ⟨ip, rng, hp, hcap⟩
    rw [hbuild h s cap ip rng hp hcap]
    rfl

/-- C5 witness: a concrete accepted configuration, via the theorem. -/
theorem claim_C5_witness :
    ( Holder.initialize (NewFakeDNSHolderConfigOnly none) "240.0.0.0/8" 65535).isSome = true :=
  (claim_C5.1 (NewFakeDNSHolderConfigOnly none) "240.0.0.0/8" 65535).mpr
    ⟨[240, 0, 0, 0], ⟨[240, 0, 0, 0], 8⟩, by decide, by decide⟩

/-- C6: `GetDomainFromFakeDNS` answers "not found" (the empty string)
immediately for a non-IP-family address — on every holder state, so without
consulting the cache — and likewise for every IP address whose bytes fall
outside the pool range, on every cache; for an address inside the range it
returns the reverse-mapped domain if one is live and "not found" otherwise. -/
theorem claim_C6 :
    (∀ (h : Holder) (ip : Address), ip.familyIsIP = false →
      h.GetDomainFromFakeDNS ip = some "") ∧
    (∀ (h : Holder) (rng : IPNet) (ip : Address), h.ipRange = some rng →
      ip.familyIsIP = true → rng.containsBytes ip.ipBytes = false →
      h.GetDomainFromFakeDNS ip = some "") ∧
    (∀ (h : Holder) (rng : IPNet) (cache : Lru) (ip : Address), h.ipRange = some rng →
      h.domainToIP = some cache → ip.familyIsIP = true →
      rng.containsBytes ip.ipBytes = true →
      h.GetDomainFromFakeDNS ip = some ((cache.getKeyFromValue (some ip)).getD "")) := by
  refine ⟨?_, ?_, ?_⟩
  · intro h ip hip
    unfold Holder.GetDomainFromFakeDNS
    rw [hip]
    rfl
  · intro h rng ip hir hip hc
    unfold Holder.GetDomainFromFakeDNS
    rw [hip, hir]
    dsimp only
    rw [hc]
    rfl
  · intro h rng cache ip hir hdt hip hc
    unfold Holder.GetDomainFromFakeDNS
    rw [hip, hir]
    dsimp only
    rw [hc, hdt]
    dsimp only
    cases cache.getKeyFromValue (some ip) <;> rfl

/-- C6 witness: the three answer shapes at a concrete holder. -/
theorem claim_C6_witness :
    Holder.GetDomainFromFakeDNS ⟨some ⟨2, [("a.com", some (Address.ipv4 240 0 0 5))]⟩,
        some 4026531840, some ⟨[240, 0, 0, 0], 8⟩, none⟩ (Address.domain "x") = some "" ∧
      Holder.GetDomainFromFakeDNS ⟨some ⟨2, [("a.com", some (Address.ipv4 240 0 0 5))]⟩,
        some 4026531840, some ⟨[240, 0, 0, 0], 8⟩, none⟩ (Address.ipv4 10 0 0 1) = some "" ∧
      Holder.GetDomainFromFakeDNS ⟨some ⟨2, [("a.com", some (Address.ipv4 240 0 0 5))]⟩,
        some 4026531840, some ⟨[240, 0, 0, 0], 8⟩, none⟩ (Address.ipv4 240 0 0 5) =
        some "a.com" := by
  refine ⟨claim_C6.1 _ _ (by decide),
    claim_C6.2.1 _ ⟨[240, 0, 0, 0], 8⟩ _ rfl (by decide) (by decide), ?_⟩
  rw [claim_C6.2.2 _ ⟨[240, 0, 0, 0], 8⟩ ⟨2, [("a.com", some (Address.ipv4 240 0 0 5))]⟩ _
    rfl rfl (by decide) (by decide)]
  decide

/-- C1: on every holder reachable from a successful initialization through
`GetFakeIPForDomain` and `GetDomainFromFakeDNS` calls, the live mappings form
a partial bijection: no two live domains share an address and no domain has
two addresses. -/
theorem claim_C1 (h : Holder) (hr : Reachable h) (cache : Lru)
    (hc : h.domainToIP = some cache) : cache.bijective :=
  (reachable_cache_invariant h hr cache hc).1

/-- C1 witness: the bijection at a concrete reachable state, one allocation
after initialization. -/
theorem claim_C1_witness :
    Lru.bijective ⟨2, [("a.com", some (Address.ipv4 240 0 0 0))]⟩ := by
  have h0 : Reachable (⟨some ⟨2, []⟩, some 4026531840, some ⟨[240, 0, 0, 0], 8⟩,
      none⟩ : Holder) :=
    Reachable.init (NewFakeDNSHolderConfigOnly none) "240.0.0.0/8" 2
      ⟨some ⟨2, []⟩, some 4026531840, some ⟨[240, 0, 0, 0], 8⟩, none⟩ (by decide)
  have h1 : Reachable (⟨some ⟨2, [("a.com", some (Address.ipv4 240 0 0 0))]⟩,
      some 4026531841, some ⟨[240, 0, 0, 0], 8⟩, none⟩ : Holder) :=
    Reachable.getIP _ 4 "a.com" [some (Address.ipv4 240 0 0 0)]
      ⟨some ⟨2, [("a.com", some (Address.ipv4 240 0 0 0))]⟩, some 4026531841,
        some ⟨[240, 0, 0, 0], 8⟩, none⟩ h0 (by decide)
  exact claim_C1 _ h1 _ rfl

/-- C8: the cursor of every reachable holder denotes a pool address; a cursor
increment that would leave the range resets to the base address; with the
2^24-address pool `240.0.0.0/8` and the cursor at the top of the range,
allocation hands out the top address and continues from the base. -/
theorem claim_C8 :
    (∀ (h : Holder) (rng : IPNet) (cur : Nat), Reachable h → h.ipRange = some rng →
      h.nextIP = some cur → inPool rng cur) ∧
    (∀ (rng : IPNet) (cur : Nat), ParsedRange rng → ¬inPool rng (cur + 1) →
      advanceCursor rng cur = rng.baseN) ∧
    advanceCursor ⟨[240, 0, 0, 0], 8⟩ 4043309055 = 4026531840 ∧
    Holder.GetFakeIPForDomain ⟨some ⟨16, []⟩, some 4043309055,
        some ⟨[240, 0, 0, 0], 8⟩, none⟩ 5 "top.example" =
      some ([some (Address.ipv4 240 255 255 255)],
        ⟨some ⟨16, [("top.example", some (Address.ipv4 240 255 255 255))]⟩,
          some 4026531840, some ⟨[240, 0, 0, 0], 8⟩, none⟩) ∧
    Holder.GetFakeIPForDomain ⟨some ⟨16, [("top.example",
          some (Address.ipv4 240 255 255 255))]⟩, some 4026531840,
        some ⟨[240, 0, 0, 0], 8⟩, none⟩ 5 "next.example" =
      some ([some (Address.ipv4 240 0 0 0)],
        ⟨some ⟨16, [("next.example", some (Address.ipv4 240 0 0 0)),
            ("top.example", some (Address.ipv4 240 255 255 255))]⟩,
          some 4026531841, some ⟨[240, 0, 0, 0], 8⟩, none⟩) := by
  refine ⟨?_, ?_, by decide, by decide, by decide⟩
  · intro h rng cur hr hrng hcur
    exact (reachable_range_cursor h hr rng hrng).2 cur hcur
  · intro rng cur hp hnotin
    unfold advanceCursor
    rw [if_neg ?hc]
    · rfl
    case hc =>
      intro hcont
      exact hnotin ((contains_natBytes_iff rng hp (cur + 1)).mp hcont).2.2

/-- C7: the concrete scenario on pool `"240.0.0.0/8"` with capacity 2:
`a.com` gets 240.0.0.0, `b.com` gets 240.0.0.1, allocating `c.com` (which
gets 240.0.0.2) evicts `a.com`, after which the reverse lookup of 240.0.0.0
answers "not found", `b.com`'s address is still live, and `c.com`'s address
differs from it. -/
theorem claim_C7 :
    Holder.initialize (NewFakeDNSHolderConfigOnly none) "240.0.0.0/8" 2 =
      some ⟨some ⟨2, []⟩, some 4026531840, some ⟨[240, 0, 0, 0], 8⟩, none⟩ ∧
    Holder.GetFakeIPForDomain ⟨some ⟨2, []⟩, some 4026531840,
        some ⟨[240, 0, 0, 0], 8⟩, none⟩ 16777216 "a.com" =
      some ([some (Address.ipv4 240 0 0 0)],
        ⟨some ⟨2, [("a.com", some (Address.ipv4 240 0 0 0))]⟩, some 4026531841,
          some ⟨[240, 0, 0, 0], 8⟩, none⟩) ∧
    Holder.GetFakeIPForDomain ⟨some ⟨2, [("a.com", some (Address.ipv4 240 0 0 0))]⟩,
        some 4026531841, some ⟨[240, 0, 0, 0], 8⟩, none⟩ 16777216 "b.com" =
      some ([some (Address.ipv4 240 0 0 1)],
        ⟨some ⟨2, [("b.com", some (Address.ipv4 240 0 0 1)),
            ("a.com", some (Address.ipv4 240 0 0 0))]⟩, some 4026531842,
          some ⟨[240, 0, 0, 0], 8⟩, none⟩) ∧
    Holder.GetFakeIPForDomain ⟨some ⟨2, [("b.com", some (Address.ipv4 240 0 0 1)),
          ("a.com", some (Address.ipv4 240 0 0 0))]⟩, some 4026531842,
        some ⟨[240, 0, 0, 0], 8⟩, none⟩ 16777216 "c.com" =
      some ([some (Address.ipv4 240 0 0 2)],
        ⟨some ⟨2, [("c.com", some (Address.ipv4 240 0 0 2)),
            ("b.com", some (Address.ipv4 240 0 0 1))]⟩, some 4026531843,
          some ⟨[240, 0, 0, 0], 8⟩, none⟩) ∧
    Holder.GetDomainFromFakeDNS ⟨some ⟨2, [("c.com", some (Address.ipv4 240 0 0 2)),
        ("b.com", some (Address.ipv4 240 0 0 1))]⟩, some 4026531843,
      some ⟨[240, 0, 0, 0], 8⟩, none⟩ (Address.ipv4 240 0 0 0) = some "" ∧
    Holder.GetDomainFromFakeDNS ⟨some ⟨2, [("c.com", some (Address.ipv4 240 0 0 2)),
        ("b.com", some (Address.ipv4 240 0 0 1))]⟩, some 4026531843,
      some ⟨[240, 0, 0, 0], 8⟩, none⟩ (Address.ipv4 240 0 0 1) = some "b.com" ∧
    Address.ipv4 240 0 0 2 ≠ Address.ipv4 240 0 0 1 := by
  decide

/-- C9 (amended): a repeated forward lookup is idempotent when the issued
address is a genuine one: after a call for `d` that returns a proper
(non-nil) address on a cache of positive capacity (so the fresh mapping is
not immediately evicted), a second call for `d` returns the same address and
leaves the holder — cache and cursor — exactly as it was: the hit path
performs no allocation. -/
theorem claim_C9 (h : Holder) (cache : Lru) (hdt : h.domainToIP = some cache)
    (hcap : 1 ≤ cache.capacity) (fuel fuel2 : Nat) (d : String)
    (a : Address) (h2 : Holder)
    (hcall : h.GetFakeIPForDomain fuel d = some ([some a], h2)) :
    h2.GetFakeIPForDomain fuel2 d = some ([some a], h2) := by
  obtain ⟨cache0, cur, rng, hdt0, hni0, hir0, hcase⟩ :=
    getIP_spec h fuel d [some a] h2 hcall
  obtain rfl : cache = cache0 := by
    rw [hdt0] at hdt
    injection hdt with hh
    exact hh.symm
  rcases hcase with ⟨e, hfind, hek, _, hr, rfl⟩ | ⟨hfind, ip, cur2, hloop, hr, rfl⟩
  · have hva : e.2 = some a := by
      injection hr with h1 _
      exact h1.symm
    have he2 : e = (d, some a) := by
      rw [← hek, ← hva]
    apply getIP_hit ({ h with domainToIP := some ⟨cache.capacity,
        e :: cache.entries.eraseP (fun e2 => decide (e2.1 = d))⟩ } : Holder)
      ⟨cache.capacity, e :: cache.entries.eraseP (fun e2 => decide (e2.1 = d))⟩
      cur rng rfl hni0 hir0 fuel2 d a
      (cache.entries.eraseP (fun e2 => decide (e2.1 = d)))
    dsimp only
    rw [he2]
  · have hipa : ip = some a := by
      injection hr with h1 _
      exact h1.symm
    subst hipa
    have hk : d ∉ cache.entries.map Prod.fst := (find?_key_none_iff _ _).mp hfind
    obtain ⟨tl, htl⟩ := put_fresh_head cache d (some a) hk hcap
    exact getIP_hit ({ h with
        domainToIP := some (cache.put d (some a))
        nextIP := some cur2 } : Holder)
      (cache.put d (some a)) cur2 rng rfl rfl hir0 fuel2 d a tl htl

/-- C9 counterexample: the claim fails as stated. On the pool `"0.0.0.0/8"`
(accepted by `initialize`) the first call for `a.com` caches and returns the
nil address; the second call for `a.com` hits the cache and reaches the
`v.(net.Address)` type assertion with a nil interface value, which panics in
Go — the hit yields no result at all for any fuel, instead of returning the
same address both times. -/
theorem claim_C9_counterexample :
    Holder.initialize (NewFakeDNSHolderConfigOnly none) "0.0.0.0/8" 1 =
      some ⟨some ⟨1, []⟩, some 0, some ⟨[0, 0, 0, 0], 8⟩, none⟩ ∧
    Holder.GetFakeIPForDomain ⟨some ⟨1, []⟩, some 0, some ⟨[0, 0, 0, 0], 8⟩, none⟩
        3 "a.com" =
      some ([none], ⟨some ⟨1, [("a.com", none)]⟩, some 0, some ⟨[0, 0, 0, 0], 8⟩, none⟩) ∧
    (∀ fuel : Nat, Holder.GetFakeIPForDomain ⟨some ⟨1, [("a.com", none)]⟩, some 0,
        some ⟨[0, 0, 0, 0], 8⟩, none⟩ fuel "a.com" = none) ∧
    ¬∃ (r : List (Option Address)) (h3 : Holder),
      Holder.GetFakeIPForDomain ⟨some ⟨1, [("a.com", none)]⟩, some 0,
        some ⟨[0, 0, 0, 0], 8⟩, none⟩ 3 "a.com" = some (r, h3) := by
  refine ⟨by decide, by decide, fun fuel => rfl, ?_⟩
  rintro ⟨r, h3, heq⟩
  rw [show Holder.GetFakeIPForDomain ⟨some ⟨1, [("a.com", none)]⟩, some 0,
      some ⟨[0, 0, 0, 0], 8⟩, none⟩ 3 "a.com" = none from rfl] at heq
  exact Option.noConfusion heq

/-- C9 witness: a concrete repeated lookup of a genuine address, via the
theorem. -/
theorem claim_C9_witness :
    Holder.GetFakeIPForDomain ⟨some ⟨2, [("a.com", some (Address.ipv4 240 0 0 0))]⟩,
        some 4026531841, some ⟨[240, 0, 0, 0], 8⟩, none⟩ 7 "a.com" =
      some ([some (Address.ipv4 240 0 0 0)],
        ⟨some ⟨2, [("a.com", some (Address.ipv4 240 0 0 0))]⟩, some 4026531841,
          some ⟨[240, 0, 0, 0], 8⟩, none⟩) := by
  apply claim_C9 ⟨some ⟨2, []⟩, some 4026531840, some ⟨[240, 0, 0, 0], 8⟩, none⟩
    ⟨2, []⟩ rfl (by decide) 5 7 "a.com" (Address.ipv4 240 0 0 0) _ (by decide)

/-- The allocator invariant at the freshly initialized `240.0.0.0/8` pool of
capacity 2. -/
theorem example_goodState :
    GoodState ⟨2, []⟩ ⟨[240, 0, 0, 0], 8⟩ 4026531840 := by
  refine ⟨⟨?_, ?_⟩, ?_, ?_, ?_, ?_⟩
  · unfold ParsedRange Masked maskedApply
    decide
  · decide
  · unfold inPool IPNet.baseN IPNet.poolSize
    decide
  · intro e he
    exact absurd he (by simp)
  · decide
  · unfold IPNet.poolSize
    decide

/-- The allocation loop on the degenerate pool `0.0.0.0/8` with the nil
candidate already cached: the cursor byte form is empty, candidate and reset
cursor never change, so no fuel suffices — the Go loop runs forever. -/
theorem allocLoop_degenerate :
    ∀ fuel : Nat, allocLoop ⟨1, [("a.com", none)]⟩ ⟨[0, 0, 0, 0], 8⟩ fuel 0 = none := by
  intro fuel
  induction fuel with
  | zero => rfl
  | succ f ih =>
    show allocLoop _ _ (f + 1) 0 = none
    unfold allocLoop
    dsimp only
    rw [if_pos (by decide), show advanceCursor ⟨[0, 0, 0, 0], 8⟩ 0 = 0 from by decide]
    exact ih

/-- A forward lookup that misses the cache and whose allocation loop runs out
of fuel returns nothing: the abstract shape of a diverging Go call. -/
theorem getIP_miss_none (h : Holder) (cache : Lru) (cur : Nat) (rng : IPNet)
    (hdt : h.domainToIP = some cache) (hni : h.nextIP = some cur)
    (hir : h.ipRange = some rng) (fuel : Nat) (d : String) (c2 : Lru)
    (hget : cache.get d = (none, c2))
    (hloop : allocLoop cache rng fuel cur = none) :
    h.GetFakeIPForDomain fuel d = none := by
  unfold Holder.GetFakeIPForDomain
  rw [hdt, hni, hir]
  dsimp only
  rw [hget]
  dsimp only
  rw [hloop]

/-- C2 (amended): on a holder satisfying the allocator invariant whose pool
base has a nonzero leading octet and whose cache capacity is at least 1 (so
the fresh mapping is not evicted by its own insertion), every successful
`GetFakeIPForDomain` call returns a single proper address whose reverse
lookup gives back the domain. -/
theorem claim_C2 (h : Holder) (cache : Lru) (rng : IPNet) (cur : Nat)
    (hdt : h.domainToIP = some cache) (hir : h.ipRange = some rng)
    (hni : h.nextIP = some cur) (hg : GoodState cache rng cur)
    (hcap : 1 ≤ cache.capacity) (fuel : Nat) (d : String)
    (r : List (Option Address)) (h2 : Holder)
    (hcall : h.GetFakeIPForDomain fuel d = some (r, h2)) :
    ∃ a : Address, r = [some a] ∧ h2.GetDomainFromFakeDNS a = some d := by
  obtain ⟨hrg, hcur, hvals, hlen, hcapsize⟩ := hg
  obtain ⟨cache0, cur0, rng0, hdt0, hni0, hir0, hcase⟩ := getIP_spec h fuel d r h2 hcall
  obtain rfl : cache = cache0 := by
    rw [hdt0] at hdt
    injection hdt with hh
    exact hh.symm
  obtain rfl : cur = cur0 := by
    rw [hni0] at hni
    injection hni with hh
    exact hh.symm
  obtain rfl : rng = rng0 := by
    rw [hir0] at hir
    injection hir with hh
    exact hh.symm
  rcases hcase with ⟨e, hfind, hek, _, hr, rfl⟩ | ⟨hfind, ip, cur2, hloop, hr, rfl⟩
  · obtain ⟨n, hn, hval⟩ := hvals e (List.mem_of_find?_eq_some hfind)
    obtain ⟨a, haddr, hfam, hbytes, hcont⟩ := pool_addr_reverse rng hrg n hn
    have hva : e.2 = some a := by rw [hval, haddr]
    refine ⟨a, by rw [hr, hva], ?_⟩
    apply getDomain_found (⟨some ⟨cache.capacity,
        e :: cache.entries.eraseP (fun e2 => decide (e2.1 = d))⟩,
        h.nextIP, h.ipRange, h.config⟩ : Holder) rng ⟨cache.capacity,
        e :: cache.entries.eraseP (fun e2 => decide (e2.1 = d))⟩ a hir0 rfl hfam hcont d
    apply getKeyFromValue_head _ d (some a)
      (cache.entries.eraseP (fun e2 => decide (e2.1 = d)))
    dsimp only
    rw [show e = (d, some a) from by rw [← hva, ← hek]]
  · have hkd : d ∉ cache.entries.map Prod.fst := (find?_key_none_iff _ _).mp hfind
    obtain ⟨hfree, c, hip, hcur2, k, hk⟩ := allocLoop_spec cache rng fuel cur ip cur2 hloop
    have hcpool : inPool rng c := by
      rw [hk]
      exact advanceCursor_iterate_inPool rng hrg.1 cur hcur k
    obtain ⟨a, haddr, hfam, hbytes, hcont⟩ := pool_addr_reverse rng hrg c hcpool
    have hipa : ip = some a := by rw [hip, haddr]
    obtain ⟨tl, htl⟩ := put_fresh_head cache d ip hkd hcap
    refine ⟨a, by rw [hr, hipa], ?_⟩
    apply getDomain_found (⟨some (cache.put d ip), some cur2, h.ipRange, h.config⟩ :
        Holder) rng (cache.put d ip) a hir0 rfl hfam hcont d
    apply getKeyFromValue_head _ d (some a) tl
    rw [htl, hipa]

/-- C2 counterexample: on the pool `"0.0.0.0/8"` (accepted by `initialize`)
the first allocation returns the nil address — `big.Int.Bytes` drops leading
zero bytes and `net.IPAddress` rejects the empty slice — so no address is
returned at all on which the reverse lookup could give back the domain: the
claim fails as stated. -/
theorem claim_C2_counterexample :
    Holder.initialize (NewFakeDNSHolderConfigOnly none) "0.0.0.0/8" 1 =
      some ⟨some ⟨1, []⟩, some 0, some ⟨[0, 0, 0, 0], 8⟩, none⟩ ∧
    Holder.GetFakeIPForDomain ⟨some ⟨1, []⟩, some 0, some ⟨[0, 0, 0, 0], 8⟩, none⟩
        3 "a.com" =
      some ([none], ⟨some ⟨1, [("a.com", none)]⟩, some 0, some ⟨[0, 0, 0, 0], 8⟩, none⟩) ∧
    ¬∃ (a : Address) (h2 : Holder),
      Holder.GetFakeIPForDomain ⟨some ⟨1, []⟩, some 0, some ⟨[0, 0, 0, 0], 8⟩, none⟩
          3 "a.com" = some ([some a], h2) ∧
        h2.GetDomainFromFakeDNS a = some "a.com" := by
  refine ⟨by decide, by decide, ?_⟩
  rintro ⟨a, h2, heq, _⟩
  rw [show Holder.GetFakeIPForDomain ⟨some ⟨1, []⟩, some 0, some ⟨[0, 0, 0, 0], 8⟩, none⟩
      3 "a.com" = some ([none], ⟨some ⟨1, [("a.com", none)]⟩, some 0,
        some ⟨[0, 0, 0, 0], 8⟩, none⟩) from by decide] at heq
  simp at heq

/-- C2 witness: the amended round-trip at the initialized `240.0.0.0/8`
holder, via the theorem. -/
theorem claim_C2_witness :
    ∃ a : Address, [some (Address.ipv4 240 0 0 0)] = [some a] ∧
      Holder.GetDomainFromFakeDNS ⟨some ⟨2, [("a.com", some (Address.ipv4 240 0 0 0))]⟩,
        some 4026531841, some ⟨[240, 0, 0, 0], 8⟩, none⟩ a = some "a.com" := by
  apply claim_C2 ⟨some ⟨2, []⟩, some 4026531840, some ⟨[240, 0, 0, 0], 8⟩, none⟩
    ⟨2, []⟩ ⟨[240, 0, 0, 0], 8⟩ 4026531840 rfl rfl rfl example_goodState (by decide)
    5 "a.com" [some (Address.ipv4 240 0 0 0)]
    ⟨some ⟨2, [("a.com", some (Address.ipv4 240 0 0 0))]⟩, some 4026531841,
      some ⟨[240, 0, 0, 0], 8⟩, none⟩ (by decide)

/-- C4 (amended): on an allocator state satisfying the invariant — in
particular the pool base has a nonzero leading octet and the live count is
below the pool size — the loop finds a free address within at most
`poolSize` iterations, so any fuel of at least `poolSize` succeeds. The
implementation itself does not bound the iteration count: on the degenerate
pool `0.0.0.0/8` with the nil candidate cached, the loop never finishes for
any fuel instead of failing loudly. -/
theorem claim_C4 (cache : Lru) (rng : IPNet) (cur : Nat)
    (hg : GoodState cache rng cur) (fuel : Nat) (hfuel : rng.poolSize ≤ fuel) :
    ((∃ k < rng.poolSize, cache.getKeyFromValue
        (IPAddress (natBytes ((advanceCursor rng)^[k] cur))) = none) ∧
      (allocLoop cache rng fuel cur).isSome = true) ∧
    (∀ fuel2 : Nat, allocLoop ⟨1, [("a.com", none)]⟩ ⟨[0, 0, 0, 0], 8⟩ fuel2 0 = none) := by
  obtain ⟨hrg, hcur, hvals, hlen, hcapsize⟩ := hg
  have hposZ : (0 : Int) < (rng.poolSize : Int) := by exact_mod_cast poolSize_pos rng
  have h1 : (cache.entries.length : Int) < (rng.poolSize : Int) :=
    lt_of_le_of_lt hlen (max_lt hposZ hcapsize)
  have hcount : cache.entries.length < rng.poolSize := by exact_mod_cast h1
  exact ⟨⟨exists_free_candidate cache rng hrg cur hcur hcount,
    allocLoop_success_good cache rng hrg cur hcur hcount fuel hfuel⟩,
    allocLoop_degenerate⟩

/-- C4 counterexample: the holder initialized on `"0.0.0.0/8"` (capacity 1,
far below the 2^24 pool size) hands out the nil address, and the next
allocation exceeds `poolSize` iterations without finding a free address and
without failing loudly — the call simply never returns. -/
theorem claim_C4_counterexample :
    Holder.initialize (NewFakeDNSHolderConfigOnly none) "0.0.0.0/8" 1 =
      some ⟨some ⟨1, []⟩, some 0, some ⟨[0, 0, 0, 0], 8⟩, none⟩ ∧
    Holder.GetFakeIPForDomain ⟨some ⟨1, []⟩, some 0, some ⟨[0, 0, 0, 0], 8⟩, none⟩
        3 "a.com" =
      some ([none], ⟨some ⟨1, [("a.com", none)]⟩, some 0, some ⟨[0, 0, 0, 0], 8⟩, none⟩) ∧
    allocLoop ⟨1, [("a.com", none)]⟩ ⟨[0, 0, 0, 0], 8⟩ 16777216 0 = none ∧
    Holder.GetFakeIPForDomain ⟨some ⟨1, [("a.com", none)]⟩, some 0,
      some ⟨[0, 0, 0, 0], 8⟩, none⟩ 16777216 "b.com" = none := by
  refine ⟨by decide, by decide, allocLoop_degenerate 16777216, ?_⟩
  exact getIP_miss_none ⟨some ⟨1, [("a.com", none)]⟩, some 0, some ⟨[0, 0, 0, 0], 8⟩, none⟩
    ⟨1, [("a.com", none)]⟩ 0 ⟨[0, 0, 0, 0], 8⟩ rfl rfl rfl 16777216 "b.com"
    ⟨1, [("a.com", none)]⟩ (by decide) (allocLoop_degenerate 16777216)

/-- C4 witness: the amended termination bound at the initialized
`240.0.0.0/8` holder, via the theorem. -/
theorem claim_C4_witness :
    ((∃ k < IPNet.poolSize ⟨[240, 0, 0, 0], 8⟩, Lru.getKeyFromValue ⟨2, []⟩
        (IPAddress (natBytes ((advanceCursor ⟨[240, 0, 0, 0], 8⟩)^[k] 4026531840))) =
          none) ∧
      (allocLoop ⟨2, []⟩ ⟨[240, 0, 0, 0], 8⟩ 16777216 4026531840).isSome = true) ∧
    (∀ fuel2 : Nat, allocLoop ⟨1, [("a.com", none)]⟩ ⟨[0, 0, 0, 0], 8⟩ fuel2 0 = none) :=
  claim_C4 ⟨2, []⟩ ⟨[240, 0, 0, 0], 8⟩ 4026531840 example_goodState 16777216
    (by unfold IPNet.poolSize; norm_num)

/-- C3: the live count of every reachable holder stays within the (clamped)
capacity; inserting a fresh domain and address into a cache exactly at
capacity evicts precisely the least-recently-used entry, removing both its
forward and its reverse index entry; and a run of distinct fresh insertions
into an empty cache keeps exactly the most recently inserted `capacity`
entries — precisely the oldest are evicted. -/
theorem claim_C3 :
    (∀ (h : Holder) (cache : Lru), Reachable h → h.domainToIP = some cache →
      (cache.entries.length : Int) ≤ max 0 cache.capacity) ∧
    (∀ (l : Lru) (k : String) (v : Option Address), l.bijective →
      (l.entries.length : Int) = l.capacity → k ∉ l.entries.map Prod.fst →
      v ∉ l.entries.map Prod.snd → ∀ e, l.entries.getLast? = some e →
      (l.put k v).entries = (k, v) :: l.entries.dropLast ∧
        (l.put k v).entries.find? (fun e2 => decide (e2.1 = e.1)) = none ∧
        (l.put k v).getKeyFromValue e.2 = none) ∧
    (∀ (cap : Int) (ps : List (String × Option Address)), 0 ≤ cap →
      (ps.map Prod.fst).Nodup →
      (ps.foldl (fun l2 p => l2.put p.1 p.2) (NewLru cap)).entries =
        ps.reverse.take cap.toNat) := by
  refine ⟨?_, ?_, ?_⟩
  · intro h cache hr hdt
    exact (reachable_cache_invariant h hr cache hdt).2
  · intro l k v hb hf hk hv e he
    exact put_evicts_lru l k v hb hf hk hv e he
  · intro cap ps hcap hnd
    have hres := foldl_put_entries cap hcap ps (NewLru cap) [] rfl (by simp [NewLru])
      (by simpa using hnd)
    simpa using hres

/-- C3 witness: a concrete eviction of the least-recently-used pair, via the
theorem. -/
theorem claim_C3_witness :
    (Lru.put ⟨2, [("b.com", some (Address.ipv4 240 0 0 1)),
        ("a.com", some (Address.ipv4 240 0 0 0))]⟩ "c.com"
        (some (Address.ipv4 240 0 0 2))).entries =
      ("c.com", some (Address.ipv4 240 0 0 2)) ::
        [("b.com", some (Address.ipv4 240 0 0 1)),
          ("a.com", some (Address.ipv4 240 0 0 0))].dropLast ∧
      (Lru.put ⟨2, [("b.com", some (Address.ipv4 240 0 0 1)),
          ("a.com", some (Address.ipv4 240 0 0 0))]⟩ "c.com"
          (some (Address.ipv4 240 0 0 2))).entries.find?
        (fun e2 => decide (e2.1 = ("a.com", some (Address.ipv4 240 0 0 0)).1)) = none ∧
      (Lru.put ⟨2, [("b.com", some (Address.ipv4 240 0 0 1)),
          ("a.com", some (Address.ipv4 240 0 0 0))]⟩ "c.com"
          (some (Address.ipv4 240 0 0 2))).getKeyFromValue
        ("a.com", some (Address.ipv4 240 0 0 0)).2 = none := by
  apply claim_C3.2.1 ⟨2, [("b.com", some (Address.ipv4 240 0 0 1)),
      ("a.com", some (Address.ipv4 240 0 0 0))]⟩ "c.com" (some (Address.ipv4 240 0 0 2))
    (by constructor <;> decide) (by decide) (by decide) (by decide)
    ("a.com", some (Address.ipv4 240 0 0 0)) (by decide)

/-- C8 witness: the invariant at the initialized holder and a concrete reset
at the top of the range. -/
theorem claim_C8_witness :
    inPool ⟨[240, 0, 0, 0], 8⟩ 4026531840 ∧
      advanceCursor ⟨[240, 0, 0, 0], 8⟩ 4043309055 = IPNet.baseN ⟨[240, 0, 0, 0], 8⟩ := by
  constructor
  · apply claim_C8.1 (⟨some ⟨2, []⟩, some 4026531840, some ⟨[240, 0, 0, 0], 8⟩,
      none⟩ : Holder) ⟨[240, 0, 0, 0], 8⟩ 4026531840 ?_ rfl rfl
    exact Reachable.init (NewFakeDNSHolderConfigOnly none) "240.0.0.0/8" 2
      ⟨some ⟨2, []⟩, some 4026531840, some ⟨[240, 0, 0, 0], 8⟩, none⟩ (by decide)
  · apply claim_C8.2.1 ⟨[240, 0, 0, 0], 8⟩ 4043309055
      (by unfold ParsedRange Masked; decide)
      (by unfold inPool; decide)

end FakeDnsProof
